import Mathlib

/-!
Verification of the file-organizer core against its specification.

The Python sources are shallowly embedded: pure helpers become Lean
functions, filesystem access becomes an explicit read-only map
(`FsPath → Option Content` for file contents, association lists for the
set of existing paths), and fallible I/O returns `Option`.  Hashing is
embedded as an abstract function on file contents; properties that in
reality rest on SHA-256 collision resistance take an injectivity (or
injective-on-inputs) hypothesis.

Sections:
* preliminaries: a stable insertion sort (matching Python's stable
  `sorted`), insertion-ordered grouping maps (matching `dict` /
  `defaultdict` iteration order), decimal-representation injectivity;
* `duplicate_finder.py`: `FileInfo`, `DuplicateGroup`, staged and
  parallel duplicate detection;
* `file_mover.py`: `MoveOperation`, collision-avoiding destination
  generation, the three planners, execution and the dry-run report;
* `organizer.py`: duplicate exclusion before classification;
* `version_manager.py`: base-name extraction (the version-marker
  regexes are embedded as executable matchers), version-group analysis;
* `classifier.py`: content/type classification and confidence scores.
-/

namespace FileOrg

/-! ### Stable insertion sort

Python's `sorted`/`list.sort` is stable; with `reverse=True` it is a
stable descending sort.  `stableInsert lt x l` inserts `x` after every
element strictly preceding it (`lt y x`), so equal elements keep their
original relative order, exactly as in Python. -/

def stableInsert (lt : α → α → Bool) (x : α) : List α → List α
  | [] => [x]
  | y :: ys => if lt y x then y :: stableInsert lt x ys else x :: y :: ys

def stableSort (lt : α → α → Bool) (l : List α) : List α :=
  l.foldr (stableInsert lt) []

theorem stableInsert_perm (lt : α → α → Bool) (x : α) (l : List α) :
    List.Perm (stableInsert lt x l) (x :: l) := by
  induction l with
  | nil => simp [stableInsert]
  | cons y ys ih =>
    simp only [stableInsert]
    by_cases h : lt y x = true
    · simp only [h, if_true]
      exact (ih.cons y).trans (List.Perm.swap x y ys)
    · simp [h]

theorem stableSort_perm (lt : α → α → Bool) (l : List α) :
    List.Perm (stableSort lt l) l := by
  induction l with
  | nil => exact List.Perm.refl []
  | cons x xs ih =>
    exact (stableInsert_perm lt x (stableSort lt xs)).trans (ih.cons x)

theorem mem_stableSort (lt : α → α → Bool) (l : List α) (a : α) :
    a ∈ stableSort lt l ↔ a ∈ l :=
  (stableSort_perm lt l).mem_iff

theorem stableInsert_pairwise (lt : α → α → Bool)
    (hasymm : ∀ a b, lt a b = true → lt b a = false)
    (hnegtrans : ∀ a b c, lt c b = false → lt b a = false → lt c a = false)
    (x : α) (l : List α) (hl : l.Pairwise (fun a b => lt b a = false)) :
    (stableInsert lt x l).Pairwise (fun a b => lt b a = false) := by
  induction l with
  | nil => simp [stableInsert]
  | cons y ys ih =>
    rcases List.pairwise_cons.mp hl with ⟨hy, hys⟩
    simp only [stableInsert]
    by_cases h : lt y x = true
    · simp only [h, if_true]
      refine List.pairwise_cons.mpr ⟨?_, ih hys⟩
      intro z hz
      rcases List.mem_cons.mp ((stableInsert_perm lt x ys).mem_iff.mp hz) with
        rfl | hzys
      · exact hasymm _ _ h
      · exact hy z hzys
    · simp only [h, if_false]
      refine List.pairwise_cons.mpr ⟨?_, hl⟩
      intro z hz
      rcases List.mem_cons.mp hz with rfl | hzys
      · exact (Bool.not_eq_true _).mp h
      · exact hnegtrans _ _ _ (hy z hzys) ((Bool.not_eq_true _).mp h)

theorem stableSort_pairwise (lt : α → α → Bool)
    (hasymm : ∀ a b, lt a b = true → lt b a = false)
    (hnegtrans : ∀ a b c, lt c b = false → lt b a = false → lt c a = false)
    (l : List α) :
    (stableSort lt l).Pairwise (fun a b => lt b a = false) := by
  induction l with
  | nil => simp [stableSort]
  | cons x xs ih => exact stableInsert_pairwise lt hasymm hnegtrans x _ ih

/-- Comparator for a stable descending sort by a numeric key
(`sorted(key=…, reverse=True)`): `a` strictly precedes `b` iff its key
is strictly larger. -/
def descBy (key : α → Nat) : α → α → Bool := fun a b => decide (key b < key a)

/-- Comparator for a stable ascending sort by a numeric key. -/
def ascBy (key : α → Nat) : α → α → Bool := fun a b => decide (key a < key b)

theorem descBy_asymm (key : α → Nat) :
    ∀ a b, descBy key a b = true → descBy key b a = false := by
  intro a b h; simp only [descBy, decide_eq_true_eq] at h
  simp only [descBy, decide_eq_false_iff_not]; omega

theorem descBy_negtrans (key : α → Nat) :
    ∀ a b c, descBy key c b = false → descBy key b a = false →
      descBy key c a = false := by
  intro a b c h1 h2
  simp only [descBy, decide_eq_false_iff_not] at h1 h2 ⊢; omega

theorem sort_descBy_head_max (key : α → Nat) (l : List α) (x : α) (t : List α)
    (hs : stableSort (descBy key) l = x :: t) :
    ∀ y ∈ l, key y ≤ key x := by
  intro y hy
  have hperm := stableSort_perm (descBy key) l
  have hmem : y ∈ x :: t := hs ▸ hperm.mem_iff.mpr hy
  rcases List.mem_cons.mp hmem with rfl | h
  · omega
  · have hp := stableSort_pairwise (descBy key) (descBy_asymm key)
      (descBy_negtrans key) l
    rw [hs] at hp
    have := (List.pairwise_cons.mp hp).1 y h
    simp only [descBy, decide_eq_false_iff_not] at this; omega

/-! ### Insertion-ordered grouping maps

Python `dict`s preserve key insertion order and `defaultdict(list)`
grouping appends to the list at the key.  `insGroup` inserts into an
association list with exactly that behaviour; `optGroupFold` folds a
keyed insertion over a list, skipping elements whose key function
returns `none` (mirroring the `if hash:` guards in the source). -/

def insGroup [DecidableEq κ] (k : κ) (x : β) :
    List (κ × List β) → List (κ × List β)
  | [] => [(k, [x])]
  | (k', l) :: rest =>
    if k = k' then (k', l ++ [x]) :: rest else (k', l) :: insGroup k x rest

def optGroupFold [DecidableEq κ] (kf : α → Option κ) (tf : α → β)
    (xs : List α) (acc : List (κ × List β)) : List (κ × List β) :=
  xs.foldl (fun a x =>
    match kf x with
    | some k => insGroup k (tf x) a
    | none => a) acc

/-- Grouping a list by a total key, as `defaultdict(list)` does. -/
def groupListBy [DecidableEq κ] (key : α → κ) (xs : List α) :
    List (κ × List α) :=
  optGroupFold (fun x => some (key x)) id xs []

def grpLookup [DecidableEq κ] (k : κ) : List (κ × List β) → List β
  | [] => []
  | (k', l) :: rest => if k = k' then l else grpLookup k rest

theorem grpLookup_nil [DecidableEq κ] (k : κ) :
    grpLookup k ([] : List (κ × List β)) = [] := rfl

theorem grpLookup_cons [DecidableEq κ] (k k' : κ) (l : List β)
    (rest : List (κ × List β)) :
    grpLookup k ((k', l) :: rest) = if k = k' then l else grpLookup k rest :=
  rfl

theorem insGroup_cons [DecidableEq κ] (k k' : κ) (x : β) (l : List β)
    (rest : List (κ × List β)) :
    insGroup k x ((k', l) :: rest) =
      if k = k' then (k', l ++ [x]) :: rest
      else (k', l) :: insGroup k x rest := rfl

theorem grpLookup_insGroup [DecidableEq κ] (k k' : κ) (x : β)
    (acc : List (κ × List β)) :
    grpLookup k (insGroup k' x acc) =
      if k = k' then grpLookup k acc ++ [x] else grpLookup k acc := by
  induction acc with
  | nil =>
    show grpLookup k [(k', [x])] = _
    rw [grpLookup_cons, grpLookup_nil]
    by_cases h : k = k'
    · rw [if_pos h, if_pos h]; rfl
    · rw [if_neg h, if_neg h]
  | cons p rest ih =>
    obtain ⟨k₀, l₀⟩ := p
    rw [insGroup_cons]
    by_cases h1 : k' = k₀
    · rw [if_pos h1]
      subst h1
      by_cases h2 : k = k'
      · rw [grpLookup_cons, grpLookup_cons, if_pos h2, if_pos h2, if_pos h2]
      · rw [grpLookup_cons, grpLookup_cons, if_neg h2, if_neg h2, if_neg h2]
    · rw [if_neg h1]
      by_cases h2 : k = k₀
      · subst h2
        have hne : ¬ k = k' := fun hh => h1 hh.symm
        rw [grpLookup_cons, grpLookup_cons, if_pos rfl, if_pos rfl,
          if_neg hne]
      · rw [grpLookup_cons, grpLookup_cons, if_neg h2, if_neg h2, ih]

theorem grpLookup_optGroupFold [DecidableEq κ] (kf : α → Option κ)
    (tf : α → β) (xs : List α) (acc : List (κ × List β)) (k : κ) :
    grpLookup k (optGroupFold kf tf xs acc) =
      grpLookup k acc ++ (xs.filter (fun x => kf x = some k)).map tf := by
  induction xs generalizing acc with
  | nil => simp [optGroupFold]
  | cons x xs ih =>
    simp only [optGroupFold, List.foldl_cons]
    cases hkf : kf x with
    | none =>
      have hdec : (decide (kf x = some k)) = false := by simp [hkf]
      simp only [List.filter_cons, hdec, if_false]
      have := ih acc
      simpa only [optGroupFold] using this
    | some k' =>
      have hfold := ih (insGroup k' (tf x) acc)
      simp only [optGroupFold] at hfold
      rw [hfold, grpLookup_insGroup]
      by_cases h : k = k'
      · subst h
        have hdec : (decide (kf x = some k)) = true := by simp [hkf]
        simp [List.filter_cons, hdec, List.append_assoc]
      · have hdec : (decide (kf x = some k)) = false := by
          simp only [decide_eq_false_iff_not, hkf]
          exact fun hc => h (Option.some_injective κ hc).symm
        simp [List.filter_cons, hdec, h]

theorem keys_insGroup [DecidableEq κ] (k : κ) (x : β)
    (acc : List (κ × List β)) :
    (insGroup k x acc).map Prod.fst =
      if k ∈ acc.map Prod.fst then acc.map Prod.fst
      else acc.map Prod.fst ++ [k] := by
  induction acc with
  | nil => simp [insGroup]
  | cons p rest ih =>
    obtain ⟨k₀, l₀⟩ := p
    by_cases h : k = k₀
    · subst h; simp [insGroup]
    · simp only [insGroup, if_neg h, List.map_cons, List.mem_cons, ih]
      by_cases h2 : k ∈ rest.map Prod.fst
      · simp [h2, h]
      · simp [h2, h]

theorem mem_keys_insGroup [DecidableEq κ] (k k' : κ) (x : β)
    (acc : List (κ × List β)) :
    k ∈ (insGroup k' x acc).map Prod.fst ↔
      k = k' ∨ k ∈ acc.map Prod.fst := by
  rw [keys_insGroup]
  by_cases h : k' ∈ acc.map Prod.fst
  · simp only [h, if_true]
    constructor
    · exact Or.inr
    · rintro (rfl | hm)
      · exact h
      · exact hm
  · simp only [h, if_false, List.mem_append, List.mem_singleton]
    tauto

theorem nodup_keys_insGroup [DecidableEq κ] (k : κ) (x : β)
    (acc : List (κ × List β)) (h : (acc.map Prod.fst).Nodup) :
    ((insGroup k x acc).map Prod.fst).Nodup := by
  rw [keys_insGroup]
  by_cases hk : k ∈ acc.map Prod.fst
  · simpa [hk]
  · rw [if_neg hk]
    exact h.append (List.nodup_singleton k)
      (fun a ha hb => hk ((List.mem_singleton.mp hb) ▸ ha))

theorem nodup_keys_optGroupFold [DecidableEq κ] (kf : α → Option κ)
    (tf : α → β) (xs : List α) (acc : List (κ × List β))
    (h : (acc.map Prod.fst).Nodup) :
    ((optGroupFold kf tf xs acc).map Prod.fst).Nodup := by
  induction xs generalizing acc with
  | nil => simpa [optGroupFold]
  | cons x xs ih =>
    simp only [optGroupFold, List.foldl_cons]
    cases hkf : kf x with
    | none =>
      have := ih acc h
      simpa only [optGroupFold] using this
    | some k =>
      have := ih (insGroup k (tf x) acc) (nodup_keys_insGroup k (tf x) acc h)
      simpa only [optGroupFold] using this

theorem mem_keys_optGroupFold [DecidableEq κ] (kf : α → Option κ)
    (tf : α → β) (xs : List α) (acc : List (κ × List β)) (k : κ) :
    k ∈ (optGroupFold kf tf xs acc).map Prod.fst ↔
      k ∈ acc.map Prod.fst ∨ ∃ x ∈ xs, kf x = some k := by
  induction xs generalizing acc with
  | nil => simp [optGroupFold]
  | cons x xs ih =>
    simp only [optGroupFold, List.foldl_cons]
    cases hkf : kf x with
    | none =>
      have ih' := ih acc
      simp only [optGroupFold] at ih'
      rw [ih']
      constructor
      · rintro (h | ⟨y, hy, hky⟩)
        · exact Or.inl h
        · exact Or.inr ⟨y, List.mem_cons_of_mem x hy, hky⟩
      · rintro (h | ⟨y, hy, hky⟩)
        · exact Or.inl h
        · rcases List.mem_cons.mp hy with rfl | hy'
          · rw [hkf] at hky; cases hky
          · exact Or.inr ⟨y, hy', hky⟩
    | some k' =>
      have ih' := ih (insGroup k' (tf x) acc)
      simp only [optGroupFold] at ih'
      rw [ih', mem_keys_insGroup]
      constructor
      · rintro ((rfl | h) | ⟨y, hy, hky⟩)
        · exact Or.inr ⟨x, List.mem_cons_self x xs, hkf⟩
        · exact Or.inl h
        · exact Or.inr ⟨y, List.mem_cons_of_mem x hy, hky⟩
      · rintro (h | ⟨y, hy, hky⟩)
        · exact Or.inl (Or.inr h)
        · rcases List.mem_cons.mp hy with rfl | hy'
          · rw [hkf] at hky
            exact Or.inl (Or.inl (Option.some_injective κ hky).symm)
          · exact Or.inr ⟨y, hy', hky⟩

theorem mem_alist_nodup [DecidableEq κ] (alist : List (κ × List β))
    (hnd : (alist.map Prod.fst).Nodup) (k : κ) (l : List β) :
    (k, l) ∈ alist ↔ k ∈ alist.map Prod.fst ∧ grpLookup k alist = l := by
  induction alist with
  | nil => simp [grpLookup]
  | cons p rest ih =>
    obtain ⟨k₀, l₀⟩ := p
    simp only [List.map_cons, List.nodup_cons] at hnd
    rw [grpLookup_cons]
    by_cases h : k = k₀
    · subst h
      rw [if_pos rfl]
      constructor
      · intro hmem
        rcases List.mem_cons.mp hmem with heq | hm
        · cases heq
          exact ⟨List.mem_cons_self _ _, rfl⟩
        · exact absurd (List.mem_map_of_mem Prod.fst hm) hnd.1
      · rintro ⟨-, rfl⟩
        exact List.mem_cons_self _ _
    · rw [if_neg h]
      constructor
      · intro hmem
        rcases List.mem_cons.mp hmem with heq | hm
        · cases heq; exact absurd rfl h
        · have hrec := (ih hnd.2).mp hm
          refine ⟨?_, hrec.2⟩
          rw [List.map_cons]
          exact List.mem_cons_of_mem _ hrec.1
      · rintro ⟨hk, rfl⟩
        rw [List.map_cons] at hk
        rcases List.mem_cons.mp hk with rfl | hk'
        · exact absurd rfl h
        · exact List.mem_cons_of_mem _ ((ih hnd.2).mpr ⟨hk', rfl⟩)

theorem mem_optGroupFold [DecidableEq κ] (kf : α → Option κ) (tf : α → β)
    (xs : List α) (k : κ) (l : List β) :
    (k, l) ∈ optGroupFold kf tf xs [] ↔
      (∃ x ∈ xs, kf x = some k) ∧
        l = (xs.filter (fun x => kf x = some k)).map tf := by
  rw [mem_alist_nodup _ (nodup_keys_optGroupFold kf tf xs [] (by simp)),
    mem_keys_optGroupFold, grpLookup_optGroupFold]
  simp [grpLookup, eq_comm]

/-! ### Injectivity of `Nat.repr`

Needed to show that the numeric-suffix collision loop in
`FileMover._get_unique_path` always finds a fresh path: distinct
counters yield distinct candidate names. -/

theorem toDigitsCore_append (fuel : Nat) :
    ∀ (n : Nat) (ds : List Char),
      Nat.toDigitsCore 10 fuel n ds = Nat.toDigitsCore 10 fuel n [] ++ ds := by
  induction fuel with
  | zero => intro n ds; simp [Nat.toDigitsCore]
  | succ fuel ih =>
    intro n ds
    simp only [Nat.toDigitsCore]
    by_cases h : n / 10 = 0
    · simp [h]
    · simp only [h, if_false]
      rw [ih (n / 10) [Nat.digitChar (n % 10)],
        ih (n / 10) (Nat.digitChar (n % 10) :: ds), List.append_assoc]
      rfl

theorem toDigitsCore_fuel_irrel (f₁ : Nat) :
    ∀ f₂ n ds, n < f₁ → n < f₂ →
      Nat.toDigitsCore 10 f₁ n ds = Nat.toDigitsCore 10 f₂ n ds := by
  induction f₁ with
  | zero => intro f₂ n ds h1; omega
  | succ f₁ ih =>
    intro f₂ n ds h1 h2
    cases f₂ with
    | zero => omega
    | succ f₂ =>
      simp only [Nat.toDigitsCore]
      by_cases h : n / 10 = 0
      · simp [h]
      · simp only [h, if_false]
        have hn : n ≠ 0 := fun h0 => h (by simp [h0])
        have hlt : n / 10 < n := Nat.div_lt_self (by omega) (by omega)
        exact ih f₂ (n / 10) _ (by omega) (by omega)

def decDigit (a : Nat) (c : Char) : Nat := 10 * a + (c.toNat - 48)

theorem digitChar_decode (n : Nat) (h : n < 10) :
    (Nat.digitChar n).toNat - 48 = n := by
  interval_cases n <;> rfl

theorem decode_toDigits (n : Nat) :
    List.foldl decDigit 0 (Nat.toDigits 10 n) = n := by
  induction n using Nat.strong_induction_on with
  | _ n ih =>
    show List.foldl decDigit 0 (Nat.toDigitsCore 10 (n + 1) n []) = n
    simp only [Nat.toDigitsCore]
    by_cases h : n / 10 = 0
    · have hn : n < 10 := by omega
      simp only [h, if_true, List.foldl, decDigit]
      rw [digitChar_decode (n % 10) (Nat.mod_lt n (by omega))]
      omega
    · simp only [h, if_false]
      rw [toDigitsCore_append]
      have hlt : n / 10 < n := Nat.div_lt_self (by omega) (by omega)
      have hfuel : Nat.toDigitsCore 10 n (n / 10) [] =
          Nat.toDigits 10 (n / 10) :=
        toDigitsCore_fuel_irrel n (n / 10 + 1) (n / 10) [] (by omega)
          (by omega)
      rw [hfuel, List.foldl_append, ih (n / 10) hlt]
      simp only [List.foldl, decDigit]
      rw [digitChar_decode (n % 10) (Nat.mod_lt n (by omega))]
      omega

theorem natRepr_injective : Function.Injective Nat.repr := by
  intro a b h
  have hdata : (Nat.toDigits 10 a) = (Nat.toDigits 10 b) := by
    have := congrArg String.data h
    simpa [Nat.repr, List.asString] using this
  calc a = List.foldl decDigit 0 (Nat.toDigits 10 a) :=
        (decode_toDigits a).symm
    _ = List.foldl decDigit 0 (Nat.toDigits 10 b) := by rw [hdata]
    _ = b := decode_toDigits b

/-! ### Data model: paths, contents, file records

A filesystem path is kept structurally as (directory components, stem,
suffix); `name = stem ++ suffix` and existence is checked on the pair
(directory, name), matching `pathlib` where `stem`/`suffix` split the
final component at its last extension. -/

abbrev DirPath := List String

structure FsPath where
  dir : DirPath
  stem : String
  suffix : String
deriving DecidableEq, Repr

def FsPath.name (p : FsPath) : String := p.stem ++ p.suffix

/-- What identifies a filesystem entry: its directory and full name. -/
abbrev PathKey := DirPath × String

def FsPath.key (p : FsPath) : PathKey := (p.dir, p.name)

/-- File contents as a byte list. -/
abbrev Content := List Nat

/-- `duplicate_finder.FileInfo`.  Modification/creation times are the
numeric timestamps from `stat`; `hash` is filled in lazily by the
duplicate finder. -/
structure FileInfo where
  path : FsPath
  size : Nat
  hash : Option String := none
  modified_time : Nat := 0
  created_time : Nat := 0
deriving DecidableEq, Repr

/-- `duplicate_finder.DuplicateGroup`. -/
structure DuplicateGroup where
  hash : String
  files : List FileInfo := []
  total_size : Nat := 0
deriving DecidableEq, Repr

def DuplicateGroup.add_file (g : DuplicateGroup) (f : FileInfo) :
    DuplicateGroup :=
  { g with files := g.files ++ [f], total_size := g.total_size + f.size }

/-- `DuplicateGroup.wasted_space`: `0` for groups of at most one file,
otherwise `total_size - files[0].size`. -/
def DuplicateGroup.wasted_space (g : DuplicateGroup) : Nat :=
  match g.files with
  | [] => 0
  | f :: rest => if rest = [] then 0 else g.total_size - f.size

def DuplicateGroup.count (g : DuplicateGroup) : Nat := g.files.length

/-! ### `duplicate_finder.py`: hashing

The filesystem is a read-only map `fsys : FsPath → Option Content`
(`none` = unreadable / vanished).  The SHA-256 digests are abstracted
as functions `H` (full) and `PH` (sample hash) on contents; `try/except`
around I/O becomes the `Option`. -/

/-- `DuplicateFinder._calculate_hash`: hash of the whole content,
`none` exactly on I/O failure.  (The per-run hash cache is semantically
transparent for an immutable `fsys` and is not modelled.) -/
def calculate_hash (fsys : FsPath → Option Content) (H : Content → String)
    (p : FsPath) : Option String :=
  (fsys p).map H

/-- The bytes sampled by `_calculate_partial_hash`: a head sample, plus
a middle and tail sample when the file is larger than three samples. -/
def partHashSample (sampleSize : Nat) (c : Content) : Content :=
  if sampleSize * 3 < c.length then
    c.take sampleSize ++ (c.drop (c.length / 2)).take sampleSize
      ++ c.drop (c.length - sampleSize)
  else
    c.take sampleSize

/-- `DuplicateFinder._calculate_partial_hash` (the cheap three-sample
pre-filter hash), `none` exactly on I/O failure. -/
def calculate_part_hash (fsys : FsPath → Option Content)
    (PH : Content → String) (sampleSize : Nat) (p : FsPath) :
    Option String :=
  (fsys p).map (fun c => PH (partHashSample sampleSize c))

/-! ### `duplicate_finder.py`: staged duplicate detection

`find_duplicates` after the scan: bucket by size, drop singleton
buckets, sub-bucket by (size, sample hash) dropping files whose sample
hash failed, drop singleton sub-buckets, then group the survivors by
full hash (set on the stored `FileInfo`), keep groups with more than
one file and sort by wasted space descending (stable). -/

/-- Stage 1: size buckets with more than one file, in dict order. -/
def sizeCandidates (files : List FileInfo) : List (Nat × List FileInfo) :=
  (groupListBy (fun f => f.size) files).filter (fun g => 1 < g.2.length)

/-- Concatenation of the member lists of an association list, i.e. the
nested iteration `for _, files in buckets: for f in files`. -/
def catSnd (bs : List (κ × List β)) : List β :=
  bs.foldl (fun acc g => acc ++ g.2) []

/-- The files submitted to hashing: all members of non-singleton size
buckets, in iteration order (`files_to_hash` in the parallel variant,
and the stage-2 iteration order in the staged variant). -/
def candidateFiles (files : List FileInfo) : List FileInfo :=
  catSnd (sizeCandidates files)

/-- Stage 2: sub-bucket the candidates of each size bucket by
(size, sample hash), skipping files whose sample hash is `none`. -/
def partHashGroups (fsys : FsPath → Option Content) (PH : Content → String)
    (sampleSize : Nat) (files : List FileInfo) :
    List ((Nat × String) × List FileInfo) :=
  (sizeCandidates files).foldl
    (fun acc g =>
      optGroupFold
        (fun f => (calculate_part_hash fsys PH sampleSize f.path).map
          (fun ph => (g.1, ph)))
        id g.2 acc)
    []

/-- Sub-buckets that still have more than one file. -/
def finalCandidates (fsys : FsPath → Option Content) (PH : Content → String)
    (sampleSize : Nat) (files : List FileInfo) :
    List ((Nat × String) × List FileInfo) :=
  (partHashGroups fsys PH sampleSize files).filter (fun g => 1 < g.2.length)

/-- The files that reach stage 3, in iteration order. -/
def survivorFiles (fsys : FsPath → Option Content) (PH : Content → String)
    (sampleSize : Nat) (files : List FileInfo) : List FileInfo :=
  catSnd (finalCandidates fsys PH sampleSize files)

/-- The stored member record: stage 3 sets `file_info.hash` to the
computed full hash before adding it to the group. -/
def setHash (fsys : FsPath → Option Content) (H : Content → String)
    (f : FileInfo) : FileInfo :=
  { f with hash := calculate_hash fsys H f.path }

/-- Stage 3: group the surviving files by full hash (skipping files
whose full hash is `none`), keyed in insertion order. -/
def fullHashGroups (fsys : FsPath → Option Content) (PH H : Content → String)
    (sampleSize : Nat) (files : List FileInfo) :
    List (String × List FileInfo) :=
  (finalCandidates fsys PH sampleSize files).foldl
    (fun acc g =>
      optGroupFold (fun f => calculate_hash fsys H f.path)
        (setHash fsys H) g.2 acc)
    []

/-- Build the `DuplicateGroup` for one hash key by repeated
`add_file`, as the source does. -/
def mkDuplicateGroup (p : String × List FileInfo) : DuplicateGroup :=
  p.2.foldl DuplicateGroup.add_file { hash := p.1 }

/-- `DuplicateFinder.find_duplicates`, starting from the scanned file
list: groups with at least two files, sorted by wasted space
descending. -/
def find_duplicates (fsys : FsPath → Option Content) (PH H : Content → String)
    (files : List FileInfo) : List DuplicateGroup :=
  stableSort (descBy DuplicateGroup.wasted_space)
    (((fullHashGroups fsys PH H 4096 files).map mkDuplicateGroup).filter
      (fun g => 1 < g.count))

/-- The single-threaded reduction at the heart of
`find_duplicates_parallel`: group an already-ordered stream of hashed
files by full hash. -/
def parallelHashGroups (fsys : FsPath → Option Content)
    (H : Content → String) (processed : List FileInfo) :
    List (String × List FileInfo) :=
  optGroupFold (fun f => calculate_hash fsys H f.path) (setHash fsys H)
    processed []

/-- `DuplicateFinder.find_duplicates_parallel`.  The worker pool hashes
`files_to_hash = candidateFiles files` and the results arrive in the
nondeterministic `as_completed` order, modelled by the explicit
`completionOrder` argument (a permutation of `candidateFiles files`);
grouping itself is the single-threaded fold above. -/
def find_duplicates_parallel (fsys : FsPath → Option Content)
    (H : Content → String) (completionOrder : List FileInfo) :
    List DuplicateGroup :=
  stableSort (descBy DuplicateGroup.wasted_space)
    (((parallelHashGroups fsys H completionOrder).map mkDuplicateGroup).filter
      (fun g => 1 < g.count))

/-! ### Structural lemmas about the duplicate-detection pipeline -/

theorem foldl_add_file_spec (l : List FileInfo) :
    ∀ g₀ : DuplicateGroup,
      l.foldl DuplicateGroup.add_file g₀ =
        { hash := g₀.hash, files := g₀.files ++ l,
          total_size := g₀.total_size + (l.map (fun f => f.size)).sum } := by
  induction l with
  | nil => intro g₀; cases g₀; simp
  | cons f l ih =>
    intro g₀
    rw [List.foldl_cons, ih]
    simp [DuplicateGroup.add_file, Nat.add_assoc]

theorem mkDuplicateGroup_eq (p : String × List FileInfo) :
    mkDuplicateGroup p =
      { hash := p.1, files := p.2,
        total_size := (p.2.map (fun f => f.size)).sum } := by
  rw [mkDuplicateGroup, foldl_add_file_spec]
  simp

theorem foldl_append_with_init (bs : List (κ × List β)) :
    ∀ a : List β,
      bs.foldl (fun acc g => acc ++ g.2) a = a ++ (bs.map Prod.snd).flatten := by
  induction bs with
  | nil => intro a; simp
  | cons g bs ih =>
    intro a
    rw [List.foldl_cons, ih, List.map_cons, List.flatten_cons,
      List.append_assoc]

theorem catSnd_eq_flatten (bs : List (κ × List β)) :
    catSnd bs = (bs.map Prod.snd).flatten := by
  simpa [catSnd] using foldl_append_with_init bs []

theorem catSnd_cons (g : κ × List β) (bs : List (κ × List β)) :
    catSnd (g :: bs) = g.2 ++ catSnd bs := by
  simp [catSnd_eq_flatten]

theorem mem_catSnd (bs : List (κ × List β)) (x : β) :
    x ∈ catSnd bs ↔ ∃ g ∈ bs, x ∈ g.2 := by
  rw [catSnd_eq_flatten, List.mem_flatten]
  constructor
  · rintro ⟨l, hl, hx⟩
    rcases List.mem_map.mp hl with ⟨g, hg, rfl⟩
    exact ⟨g, hg, hx⟩
  · rintro ⟨g, hg, hx⟩
    exact ⟨g.2, List.mem_map_of_mem Prod.snd hg, hx⟩

theorem optGroupFold_append [DecidableEq κ] (kf : α → Option κ) (tf : α → β)
    (xs ys : List α) (acc : List (κ × List β)) :
    optGroupFold kf tf (xs ++ ys) acc =
      optGroupFold kf tf ys (optGroupFold kf tf xs acc) := by
  simp [optGroupFold, List.foldl_append]

theorem optGroupFold_congr [DecidableEq κ] (kf₁ kf₂ : α → Option κ)
    (tf : α → β) (xs : List α) (acc : List (κ × List β))
    (h : ∀ x ∈ xs, kf₁ x = kf₂ x) :
    optGroupFold kf₁ tf xs acc = optGroupFold kf₂ tf xs acc := by
  induction xs generalizing acc with
  | nil => rfl
  | cons x xs ih =>
    simp only [optGroupFold, List.foldl_cons]
    rw [h x (List.mem_cons_self x xs)]
    have htail : ∀ y ∈ xs, kf₁ y = kf₂ y :=
      fun y hy => h y (List.mem_cons_of_mem x hy)
    cases kf₂ x with
    | none => exact ih acc htail
    | some k => exact ih (insGroup k (tf x) acc) htail

theorem foldl_optGroupFold_buckets [DecidableEq κ]
    (kfB : κ₀ × List α → α → Option κ) (kf : α → Option κ) (tf : α → β)
    (bs : List (κ₀ × List α)) (acc : List (κ × List β))
    (h : ∀ g ∈ bs, ∀ x ∈ g.2, kfB g x = kf x) :
    bs.foldl (fun acc g => optGroupFold (kfB g) tf g.2 acc) acc =
      optGroupFold kf tf (catSnd bs) acc := by
  induction bs generalizing acc with
  | nil => simp [catSnd, optGroupFold]
  | cons g bs ih =>
    rw [List.foldl_cons, catSnd_cons, optGroupFold_append,
      optGroupFold_congr (kfB g) kf tf g.2 acc
        (fun x hx => h g (List.mem_cons_self g bs) x hx)]
    exact ih _ (fun g' hg' x hx => h g' (List.mem_cons_of_mem g hg') x hx)

theorem mem_groupListBy [DecidableEq κ] (key : α → κ) (xs : List α)
    (k : κ) (l : List α) :
    (k, l) ∈ groupListBy key xs ↔
      (∃ x ∈ xs, key x = k) ∧ l = xs.filter (fun x => key x = k) := by
  rw [groupListBy, mem_optGroupFold]
  have hfeq : xs.filter (fun x => (some (key x) = some k : Prop)) =
      xs.filter (fun x => key x = k) := by
    apply List.filter_congr
    intro y _; simp
  constructor
  · rintro ⟨⟨x, hx, hkx⟩, rfl⟩
    exact ⟨⟨x, hx, by simpa using hkx⟩, by rw [List.map_id, hfeq]⟩
  · rintro ⟨⟨x, hx, hkx⟩, rfl⟩
    exact ⟨⟨x, hx, by simpa using hkx⟩, by rw [List.map_id, hfeq]⟩

theorem sizeCandidates_key (files : List FileInfo) (k : Nat)
    (l : List FileInfo) (h : (k, l) ∈ sizeCandidates files) :
    ∀ x ∈ l, x.size = k := by
  intro x hx
  have hg := List.mem_of_mem_filter h
  have := ((mem_groupListBy (fun f => f.size) files k l).mp hg).2
  subst this
  simpa using (List.mem_filter.mp hx).2

theorem mem_candidateFiles (files : List FileInfo) (x : FileInfo)
    (h : x ∈ candidateFiles files) : x ∈ files := by
  rcases (mem_catSnd _ x).mp h with ⟨g, hg, hx⟩
  have hgl := List.mem_of_mem_filter hg
  obtain ⟨k, l⟩ := g
  have := ((mem_groupListBy (fun f => f.size) files k l).mp hgl).2
  subst this
  exact List.mem_of_mem_filter hx

/-- The (size, sample-hash) key of one file, with the size taken from
the file record; equal to the bucketed key because every member of a
size bucket has the bucket's size. -/
def partKey (fsys : FsPath → Option Content) (PH : Content → String)
    (sampleSize : Nat) (f : FileInfo) : Option (Nat × String) :=
  (calculate_part_hash fsys PH sampleSize f.path).map (fun ph => (f.size, ph))

theorem partHashGroups_eq (fsys : FsPath → Option Content)
    (PH : Content → String) (sampleSize : Nat) (files : List FileInfo) :
    partHashGroups fsys PH sampleSize files =
      optGroupFold (partKey fsys PH sampleSize) id (candidateFiles files) [] := by
  rw [partHashGroups, candidateFiles]
  apply foldl_optGroupFold_buckets
  intro g hg x hx
  have hsz : x.size = g.1 := sizeCandidates_key files g.1 g.2 hg x hx
  simp [partKey, hsz]

theorem fullHashGroups_eq (fsys : FsPath → Option Content)
    (PH H : Content → String) (sampleSize : Nat) (files : List FileInfo) :
    fullHashGroups fsys PH H sampleSize files =
      optGroupFold (fun f => calculate_hash fsys H f.path) (setHash fsys H)
        (survivorFiles fsys PH sampleSize files) [] := by
  rw [fullHashGroups, survivorFiles]
  exact foldl_optGroupFold_buckets _ _ _ _ _ (fun g _ x _ => rfl)

theorem mem_survivorFiles (fsys : FsPath → Option Content)
    (PH : Content → String) (sampleSize : Nat) (files : List FileInfo)
    (x : FileInfo) (h : x ∈ survivorFiles fsys PH sampleSize files) :
    x ∈ candidateFiles files := by
  rcases (mem_catSnd _ x).mp h with ⟨g, hg, hx⟩
  have hgp := List.mem_of_mem_filter hg
  rw [partHashGroups_eq] at hgp
  obtain ⟨k, l⟩ := g
  have := (mem_optGroupFold _ _ _ _ _).mp hgp
  rw [this.2] at hx
  rcases List.mem_map.mp hx with ⟨y, hy, rfl⟩
  exact List.mem_of_mem_filter hy

/-- Membership in the final (filtered, sorted) duplicate-group list. -/
theorem mem_dup_output (alist : List (String × List FileInfo))
    (g : DuplicateGroup) :
    g ∈ stableSort (descBy DuplicateGroup.wasted_space)
        ((alist.map mkDuplicateGroup).filter (fun g => 1 < g.count)) ↔
      ∃ p ∈ alist, g = mkDuplicateGroup p ∧ 1 < p.2.length := by
  rw [mem_stableSort, List.mem_filter]
  constructor
  · rintro ⟨hmem, hcnt⟩
    rcases List.mem_map.mp hmem with ⟨p, hp, rfl⟩
    refine ⟨p, hp, rfl, ?_⟩
    have : 1 < (mkDuplicateGroup p).count := by simpa using hcnt
    simpa [DuplicateGroup.count, mkDuplicateGroup_eq] using this
  · rintro ⟨p, hp, rfl, hlen⟩
    refine ⟨List.mem_map_of_mem mkDuplicateGroup hp, ?_⟩
    simp [DuplicateGroup.count, mkDuplicateGroup_eq, hlen]

/-! ### Hypotheses standing in for SHA-256 collision resistance -/

/-- The abstract full-content hash `H` is injective on the contents of
the scanned files (what collision resistance provides in practice). -/
def HashInjOn (fsys : FsPath → Option Content) (H : Content → String)
    (files : List FileInfo) : Prop :=
  ∀ f g, f ∈ files → g ∈ files → ∀ cf cg,
    fsys f.path = some cf → fsys g.path = some cg → H cf = H cg → cf = cg

/-- Each scanned record's `size` matches the length of the content read
at hash time (no modification between scan and hash). -/
def SizesAccurate (fsys : FsPath → Option Content)
    (files : List FileInfo) : Prop :=
  ∀ f ∈ files, ∀ c, fsys f.path = some c → f.size = c.length

/-- A full hash result `some h` names a unique content. -/
theorem calculate_hash_some (fsys : FsPath → Option Content)
    (H : Content → String) (p : FsPath) (h : String)
    (hh : calculate_hash fsys H p = some h) :
    ∃ c, fsys p = some c ∧ H c = h := by
  rcases Option.map_eq_some'.mp hh with ⟨c, hc, rfl⟩
  exact ⟨c, hc, rfl⟩

/-- Wellformedness of the groups built from any processed file list
whose members come from the scanned files. -/
theorem dup_output_wellformed (fsys : FsPath → Option Content)
    (H : Content → String) (files processed : List FileInfo)
    (hsub : ∀ x ∈ processed, x ∈ files)
    (hInj : HashInjOn fsys H files)
    (hSz : SizesAccurate fsys files) :
    ∀ g ∈ stableSort (descBy DuplicateGroup.wasted_space)
        (((optGroupFold (fun f => calculate_hash fsys H f.path)
            (setHash fsys H) processed []).map mkDuplicateGroup).filter
          (fun g => 1 < g.count)),
      2 ≤ g.files.length ∧
        ∀ f₁ ∈ g.files, ∀ f₂ ∈ g.files,
          f₁.size = f₂.size ∧ f₁.hash = f₂.hash ∧ f₁.hash ≠ none := by
  intro g hg
  rcases (mem_dup_output _ g).mp hg with ⟨p, hp, rfl, hlen⟩
  have hchar := (mem_optGroupFold _ _ _ _ _).mp hp
  constructor
  · rw [mkDuplicateGroup_eq]; exact hlen
  · intro f₁ hf₁ f₂ hf₂
    rw [mkDuplicateGroup_eq] at hf₁ hf₂
    simp only at hf₁ hf₂
    rw [hchar.2] at hf₁ hf₂
    rcases List.mem_map.mp hf₁ with ⟨x₁, hx₁, rfl⟩
    rcases List.mem_map.mp hf₂ with ⟨x₂, hx₂, rfl⟩
    have hk₁ : calculate_hash fsys H x₁.path = some p.1 := by
      simpa using (List.mem_filter.mp hx₁).2
    have hk₂ : calculate_hash fsys H x₂.path = some p.1 := by
      simpa using (List.mem_filter.mp hx₂).2
    rcases calculate_hash_some fsys H x₁.path p.1 hk₁ with ⟨c₁, hc₁, hH₁⟩
    rcases calculate_hash_some fsys H x₂.path p.1 hk₂ with ⟨c₂, hc₂, hH₂⟩
    have hx₁f : x₁ ∈ files := hsub x₁ (List.mem_of_mem_filter hx₁)
    have hx₂f : x₂ ∈ files := hsub x₂ (List.mem_of_mem_filter hx₂)
    have hceq : c₁ = c₂ :=
      hInj x₁ x₂ hx₁f hx₂f c₁ c₂ hc₁ hc₂ (hH₁.trans hH₂.symm)
    refine ⟨?_, ?_, ?_⟩
    · have h₁ : x₁.size = c₁.length := hSz x₁ hx₁f c₁ hc₁
      have h₂ : x₂.size = c₂.length := hSz x₂ hx₂f c₂ hc₂
      simp [setHash, h₁, h₂, hceq]
    · simp [setHash, hk₁, hk₂]
    · simp [setHash, hk₁]

/-- **C2.**  Every `DuplicateGroup` reported by duplicate detection —
sequential staged or parallel — has at least two members, and all
members agree pairwise in byte size and in full content fingerprint
(the `hash` field, which is always set).  Size agreement uses the
injectivity of the full hash on the scanned contents and accuracy of
the recorded sizes. -/
theorem duplicate_groups_wellformed (fsys : FsPath → Option Content)
    (PH H : Content → String) (files order : List FileInfo)
    (hInj : HashInjOn fsys H files)
    (hSz : SizesAccurate fsys files)
    (hord : List.Perm order (candidateFiles files)) :
    (∀ g ∈ find_duplicates fsys PH H files,
      2 ≤ g.files.length ∧
        ∀ f₁ ∈ g.files, ∀ f₂ ∈ g.files,
          f₁.size = f₂.size ∧ f₁.hash = f₂.hash ∧ f₁.hash ≠ none) ∧
    (∀ g ∈ find_duplicates_parallel fsys H order,
      2 ≤ g.files.length ∧
        ∀ f₁ ∈ g.files, ∀ f₂ ∈ g.files,
          f₁.size = f₂.size ∧ f₁.hash = f₂.hash ∧ f₁.hash ≠ none) := by
  constructor
  · intro g hg
    rw [find_duplicates, fullHashGroups_eq] at hg
    exact dup_output_wellformed fsys H files _
      (fun x hx => mem_candidateFiles files x
        (mem_survivorFiles fsys PH 4096 files x hx))
      hInj hSz g hg
  · intro g hg
    rw [find_duplicates_parallel, parallelHashGroups] at hg
    exact dup_output_wellformed fsys H files order
      (fun x hx => mem_candidateFiles files x (hord.mem_iff.mp hx))
      hInj hSz g hg

/-- Closed instantiation of `duplicate_groups_wellformed`: two
identical one-byte files and one differing file. -/
theorem duplicate_groups_wellformed_witness :
    (HashInjOn
        (fun p => if p.dir = ["d"] then some [7] else none)
        (fun c => Nat.repr (c.length))
        [⟨⟨["d"], "a", ".bin"⟩, 1, none, 0, 0⟩,
         ⟨⟨["d"], "b", ".bin"⟩, 1, none, 0, 0⟩] ∧
      SizesAccurate
        (fun p => if p.dir = ["d"] then some [7] else none)
        [⟨⟨["d"], "a", ".bin"⟩, 1, none, 0, 0⟩,
         ⟨⟨["d"], "b", ".bin"⟩, 1, none, 0, 0⟩]) ∧
    ∀ g ∈ find_duplicates
        (fun p => if p.dir = ["d"] then some [7] else none)
        (fun c => Nat.repr (c.length)) (fun c => Nat.repr (c.length))
        [⟨⟨["d"], "a", ".bin"⟩, 1, none, 0, 0⟩,
         ⟨⟨["d"], "b", ".bin"⟩, 1, none, 0, 0⟩],
      2 ≤ g.files.length ∧
        ∀ f₁ ∈ g.files, ∀ f₂ ∈ g.files,
          f₁.size = f₂.size ∧ f₁.hash = f₂.hash ∧ f₁.hash ≠ none := by
  have hInj : HashInjOn
      (fun p => if p.dir = ["d"] then some [7] else none)
      (fun c => Nat.repr (c.length))
      [⟨⟨["d"], "a", ".bin"⟩, 1, none, 0, 0⟩,
       ⟨⟨["d"], "b", ".bin"⟩, 1, none, 0, 0⟩] := by
    intro f g hf hg cf cg hcf hcg _
    have h1 : cf = [7] := by
      by_cases h : f.path.dir = ["d"] <;> simp [h] at hcf
      exact hcf.symm
    have h2 : cg = [7] := by
      by_cases h : g.path.dir = ["d"] <;> simp [h] at hcg
      exact hcg.symm
    rw [h1, h2]
  have hSz : SizesAccurate
      (fun p => if p.dir = ["d"] then some [7] else none)
      [⟨⟨["d"], "a", ".bin"⟩, 1, none, 0, 0⟩,
       ⟨⟨["d"], "b", ".bin"⟩, 1, none, 0, 0⟩] := by
    intro f hf c hc
    have hc' : c = [7] := by
      fin_cases hf <;> (simp at hc; exact hc.symm)
    subst hc'
    fin_cases hf <;> rfl
  exact ⟨⟨hInj, hSz⟩,
    (duplicate_groups_wellformed _ _ _ _ _ hInj hSz (List.Perm.refl _)).1⟩

/-- **C4.**  Both fingerprint functions return `none` exactly on I/O
failure (an unreadable path) rather than raising, and every member of
every reported `DuplicateGroup` has a successfully computed sample hash
and full hash — a file whose fingerprint computation returns `none` is
excluded from every group. -/
theorem fingerprint_failure_semantics (fsys : FsPath → Option Content)
    (PH H : Content → String) (files : List FileInfo) :
    (∀ p, calculate_hash fsys H p = none ↔ fsys p = none) ∧
    (∀ p n, calculate_part_hash fsys PH n p = none ↔ fsys p = none) ∧
    (∀ g ∈ find_duplicates fsys PH H files, ∀ f ∈ g.files,
      calculate_hash fsys H f.path ≠ none ∧
        calculate_part_hash fsys PH 4096 f.path ≠ none) := by
  refine ⟨?_, ?_, ?_⟩
  · intro p; simp [calculate_hash]
  · intro p n; simp [calculate_part_hash]
  · intro g hg f hf
    rw [find_duplicates, fullHashGroups_eq] at hg
    rcases (mem_dup_output _ g).mp hg with ⟨p, hp, rfl, hlen⟩
    have hchar := (mem_optGroupFold _ _ _ _ _).mp hp
    rw [mkDuplicateGroup_eq] at hf
    simp only at hf
    rw [hchar.2] at hf
    rcases List.mem_map.mp hf with ⟨x, hx, rfl⟩
    have hk : calculate_hash fsys H x.path = some p.1 := by
      simpa using (List.mem_filter.mp hx).2
    rcases calculate_hash_some fsys H x.path p.1 hk with ⟨c, hc, -⟩
    constructor
    · simp [setHash, hk]
    · simp [setHash, calculate_part_hash, hc]

/-- Closed instantiation of `fingerprint_failure_semantics` (the parts
with hypotheses), on a two-file filesystem. -/
theorem fingerprint_failure_semantics_witness :
    ∀ g ∈ find_duplicates
        (fun p => if p.dir = ["d"] then some [7] else none)
        (fun c => Nat.repr (c.length)) (fun c => Nat.repr (c.length))
        [⟨⟨["d"], "a", ".bin"⟩, 1, none, 0, 0⟩,
         ⟨⟨["d"], "b", ".bin"⟩, 1, none, 0, 0⟩],
      ∀ f ∈ g.files,
        calculate_hash (fun p => if p.dir = ["d"] then some [7] else none)
            (fun c => Nat.repr (c.length)) f.path ≠ none ∧
          calculate_part_hash
            (fun p => if p.dir = ["d"] then some [7] else none)
            (fun c => Nat.repr (c.length)) 4096 f.path ≠ none :=
  (fingerprint_failure_semantics
    (fun p => if p.dir = ["d"] then some [7] else none)
    (fun c => Nat.repr (c.length)) (fun c => Nat.repr (c.length))
    [⟨⟨["d"], "a", ".bin"⟩, 1, none, 0, 0⟩,
     ⟨⟨["d"], "b", ".bin"⟩, 1, none, 0, 0⟩]).2.2

/-! ### Sequential/parallel agreement (C6)

The staged pipeline full-hashes only survivors of the (size, sample
hash) sub-bucketing; the parallel variant full-hashes every member of a
non-singleton size bucket.  Under hash injectivity and accurate sizes,
holders of one full hash all share one content, hence one size and one
sample hash, so either all of them survive sub-bucketing or there are
fewer than two of them — making the reported groups agree. -/

theorem catSnd_insGroup_perm [DecidableEq κ] (k : κ) (x : β)
    (acc : List (κ × List β)) :
    List.Perm (catSnd (insGroup k x acc)) (catSnd acc ++ [x]) := by
  induction acc with
  | nil => simp [insGroup, catSnd_eq_flatten]
  | cons p rest ih =>
    obtain ⟨k₀, l₀⟩ := p
    rw [insGroup_cons]
    by_cases h : k = k₀
    · rw [if_pos h, catSnd_cons, catSnd_cons, List.append_assoc,
        List.append_assoc]
      exact List.Perm.append_left l₀ (List.perm_append_comm)
    · rw [if_neg h, catSnd_cons, catSnd_cons, List.append_assoc]
      exact List.Perm.append_left l₀ ih

theorem catSnd_optGroupFold_perm [DecidableEq κ] (kf : α → Option κ)
    (xs : List α) (acc : List (κ × List α)) :
    List.Perm (catSnd (optGroupFold kf id xs acc))
      (catSnd acc ++ xs.filter (fun x => (kf x).isSome)) := by
  induction xs generalizing acc with
  | nil => simp [optGroupFold]
  | cons x xs ih =>
    simp only [optGroupFold, List.foldl_cons]
    cases hkf : kf x with
    | none =>
      have ih' := ih acc
      simp only [optGroupFold] at ih'
      simpa [List.filter_cons, hkf] using ih'
    | some k =>
      have ih' := ih (insGroup k x acc)
      simp only [optGroupFold, id_eq] at ih' ⊢
      simp only [List.filter_cons, hkf, Option.isSome_some, if_true]
      refine ih'.trans ?_
      refine ((catSnd_insGroup_perm k x acc).append_right _).trans ?_
      rw [List.append_assoc]
      exact List.Perm.refl _

theorem catSnd_sublist [DecidableEq κ] (bs bs' : List (κ × List β))
    (h : bs.Sublist bs') : (catSnd bs).Sublist (catSnd bs') := by
  induction h with
  | slnil => exact List.Sublist.refl _
  | cons g h ih =>
    rw [catSnd_cons]
    exact ih.trans (List.sublist_append_right g.2 _)
  | cons₂ g h ih =>
    rw [catSnd_cons, catSnd_cons]
    exact List.Sublist.append_left ih g.2

/-- The survivors of sub-bucketing holding a given property are never
more numerous than the candidates holding it. -/
theorem survivor_filter_length_le (fsys : FsPath → Option Content)
    (PH : Content → String) (n : Nat) (files : List FileInfo)
    (P : FileInfo → Prop) [DecidablePred P] :
    ((survivorFiles fsys PH n files).filter (fun f => P f)).length ≤
      ((candidateFiles files).filter (fun f => P f)).length := by
  have h1 : (finalCandidates fsys PH n files).Sublist
      (partHashGroups fsys PH n files) := List.filter_sublist _
  have h2 := catSnd_sublist _ _ h1
  have h3 : List.Perm (catSnd (partHashGroups fsys PH n files))
      ((candidateFiles files).filter
        (fun f => (partKey fsys PH n f).isSome)) := by
    rw [partHashGroups_eq]
    simpa [catSnd] using
      catSnd_optGroupFold_perm (partKey fsys PH n) (candidateFiles files) []
  calc ((survivorFiles fsys PH n files).filter (fun f => P f)).length
      ≤ ((catSnd (partHashGroups fsys PH n files)).filter
          (fun f => P f)).length :=
        (h2.filter _).length_le
    _ = (((candidateFiles files).filter
          (fun f => (partKey fsys PH n f).isSome)).filter
          (fun f => P f)).length := ((h3.filter _).length_eq)
    _ ≤ ((candidateFiles files).filter (fun f => P f)).length :=
        ((List.filter_sublist _).filter _).length_le

/-- Under injectivity and accurate sizes, any two candidate files with
the same full hash have the same (size, sample hash) key. -/
theorem fullhash_forces_partKey (fsys : FsPath → Option Content)
    (PH H : Content → String) (n : Nat) (files : List FileInfo)
    (hInj : HashInjOn fsys H files) (hSz : SizesAccurate fsys files)
    (h : String) (x y : FileInfo) (hx : x ∈ files) (hy : y ∈ files)
    (hkx : calculate_hash fsys H x.path = some h)
    (hky : calculate_hash fsys H y.path = some h) :
    partKey fsys PH n x = partKey fsys PH n y := by
  rcases calculate_hash_some fsys H x.path h hkx with ⟨cx, hcx, hHx⟩
  rcases calculate_hash_some fsys H y.path h hky with ⟨cy, hcy, hHy⟩
  have hceq : cx = cy := hInj x y hx hy cx cy hcx hcy (hHx.trans hHy.symm)
  have hszx : x.size = cx.length := hSz x hx cx hcx
  have hszy : y.size = cy.length := hSz y hy cy hcy
  simp [partKey, calculate_part_hash, hcx, hcy, hceq, hszx, hszy]

theorem catSnd_filter_nil [DecidableEq κ] (P : β → Prop) [DecidablePred P]
    (bs : List (κ × List β))
    (h : ∀ k l, (k, l) ∈ bs → l.filter (fun x => P x) = []) :
    (catSnd bs).filter (fun x => P x) = [] := by
  induction bs with
  | nil => simp [catSnd]
  | cons g bs ih =>
    obtain ⟨k, l⟩ := g
    rw [catSnd_cons, List.filter_append,
      h k l (List.mem_cons_self _ _),
      ih (fun k' l' hm => h k' l' (List.mem_cons_of_mem _ hm))]
    rfl

theorem catSnd_filter_single [DecidableEq κ] (P : β → Prop) [DecidablePred P]
    (bs : List (κ × List β)) (hnd : (bs.map Prod.fst).Nodup)
    (kstar : κ) (lstar : List β) (target : List β)
    (hin : (kstar, lstar) ∈ bs)
    (hl : lstar.filter (fun x => P x) = target)
    (hother : ∀ k l, (k, l) ∈ bs → k ≠ kstar →
      l.filter (fun x => P x) = []) :
    (catSnd bs).filter (fun x => P x) = target := by
  induction bs with
  | nil => cases hin
  | cons g bs ih =>
    obtain ⟨k, l⟩ := g
    simp only [List.map_cons, List.nodup_cons] at hnd
    rw [catSnd_cons, List.filter_append]
    by_cases hk : k = kstar
    · subst hk
      have hll : l = lstar := by
        rcases List.mem_cons.mp hin with heq | hm
        · exact (congrArg Prod.snd heq).symm
        · exact absurd (List.mem_map_of_mem Prod.fst hm) hnd.1
      subst hll
      rw [hl, catSnd_filter_nil P bs
        (fun k' l' hm => hother k' l' (List.mem_cons_of_mem _ hm)
          (fun hk' => hnd.1 (hk' ▸ List.mem_map_of_mem Prod.fst hm)))]
      simp
    · rw [hother k l (List.mem_cons_self _ _) hk]
      rcases List.mem_cons.mp hin with heq | hm
      · cases heq; exact absurd rfl hk
      · rw [List.nil_append]
        exact ih hnd.2 hm
          (fun k' l' hm' hk' => hother k' l' (List.mem_cons_of_mem _ hm') hk')

/-- When at least two candidate files hold a full hash, sub-bucketing
loses none of its holders: they all share one (size, sample hash)
bucket, which therefore is not a singleton. -/
theorem survivor_filter_eq_of_two (fsys : FsPath → Option Content)
    (PH H : Content → String) (files : List FileInfo)
    (hInj : HashInjOn fsys H files) (hSz : SizesAccurate fsys files)
    (h : String)
    (hcnt : 2 ≤ ((candidateFiles files).filter
      (fun f => calculate_hash fsys H f.path = some h)).length) :
    (survivorFiles fsys PH 4096 files).filter
        (fun f => calculate_hash fsys H f.path = some h) =
      (candidateFiles files).filter
        (fun f => calculate_hash fsys H f.path = some h) := by
  obtain ⟨x₀, hx₀m⟩ := List.exists_mem_of_length_pos
    (by omega : 0 < ((candidateFiles files).filter
      (fun f => calculate_hash fsys H f.path = some h)).length)
  have hx₀cf : x₀ ∈ candidateFiles files := List.mem_of_mem_filter hx₀m
  have hk₀ : calculate_hash fsys H x₀.path = some h := by
    simpa using (List.mem_filter.mp hx₀m).2
  rcases calculate_hash_some fsys H x₀.path h hk₀ with ⟨c₀, hc₀, -⟩
  have hpk₀ : partKey fsys PH 4096 x₀ =
      some (x₀.size, PH (partHashSample 4096 c₀)) := by
    simp [partKey, calculate_part_hash, hc₀]
  have hKey : ∀ f ∈ candidateFiles files,
      calculate_hash fsys H f.path = some h →
        partKey fsys PH 4096 f =
          some (x₀.size, PH (partHashSample 4096 c₀)) := by
    intro f hf hkf
    rw [fullhash_forces_partKey fsys PH H 4096 files hInj hSz h f x₀
      (mem_candidateFiles files f hf) (mem_candidateFiles files x₀ hx₀cf)
      hkf hk₀]
    exact hpk₀
  have hlenle : ((candidateFiles files).filter
      (fun f => calculate_hash fsys H f.path = some h)).length ≤
      ((candidateFiles files).filter
        (fun f => partKey fsys PH 4096 f =
          some (x₀.size, PH (partHashSample 4096 c₀)))).length := by
    rw [← List.countP_eq_length_filter, ← List.countP_eq_length_filter]
    apply List.countP_mono_left
    intro f hf hP
    simp only [decide_eq_true_eq] at hP ⊢
    exact hKey f hf hP
  have hmemPG : ((x₀.size, PH (partHashSample 4096 c₀)),
      (candidateFiles files).filter
        (fun f => partKey fsys PH 4096 f =
          some (x₀.size, PH (partHashSample 4096 c₀)))) ∈
      partHashGroups fsys PH 4096 files := by
    rw [partHashGroups_eq]
    refine (mem_optGroupFold _ _ _ _ _).mpr ⟨⟨x₀, hx₀cf, hpk₀⟩, ?_⟩
    rw [List.map_id]
  have hmemFC : ((x₀.size, PH (partHashSample 4096 c₀)),
      (candidateFiles files).filter
        (fun f => partKey fsys PH 4096 f =
          some (x₀.size, PH (partHashSample 4096 c₀)))) ∈
      finalCandidates fsys PH 4096 files := by
    rw [finalCandidates]
    refine List.mem_filter.mpr ⟨hmemPG, ?_⟩
    simp only [decide_eq_true_eq]
    omega
  have hndFC : ((finalCandidates fsys PH 4096 files).map Prod.fst).Nodup := by
    have hndPG : ((partHashGroups fsys PH 4096 files).map Prod.fst).Nodup := by
      rw [partHashGroups_eq]
      exact nodup_keys_optGroupFold _ _ _ _ (by simp)
    exact hndPG.sublist ((List.filter_sublist _).map Prod.fst)
  rw [survivorFiles]
  apply catSnd_filter_single _ _ hndFC
    (x₀.size, PH (partHashSample 4096 c₀))
    ((candidateFiles files).filter
      (fun f => partKey fsys PH 4096 f =
        some (x₀.size, PH (partHashSample 4096 c₀))))
    _ hmemFC
  · rw [List.filter_comm]
    apply List.filter_eq_self.mpr
    intro f hf
    have hfP : calculate_hash fsys H f.path = some h := by
      simpa using (List.mem_filter.mp hf).2
    simp only [decide_eq_true_eq]
    exact hKey f (List.mem_of_mem_filter hf) hfP
  · intro k l hm hk
    have hmPG := List.mem_of_mem_filter hm
    rw [partHashGroups_eq] at hmPG
    have hchar := (mem_optGroupFold _ _ _ _ _).mp hmPG
    rw [hchar.2, List.map_id]
    apply List.filter_eq_nil_iff.mpr
    intro f hf
    have hfk : partKey fsys PH 4096 f = some k := by
      simpa using (List.mem_filter.mp hf).2
    intro hP
    simp only [decide_eq_true_eq] at hP
    have := hKey f (List.mem_of_mem_filter hf) hP
    rw [hfk] at this
    exact hk (Option.some_injective _ this)

/-- Membership of a (hash, member) pair in the reported output built
from a processed file stream. -/
theorem dup_output_member_iff (fsys : FsPath → Option Content)
    (H : Content → String) (processed : List FileInfo) (h : String)
    (f : FileInfo) :
    (∃ g ∈ stableSort (descBy DuplicateGroup.wasted_space)
        (((optGroupFold (fun f => calculate_hash fsys H f.path)
            (setHash fsys H) processed []).map mkDuplicateGroup).filter
          (fun g => 1 < g.count)),
        g.hash = h ∧ f ∈ g.files) ↔
      (2 ≤ (processed.filter
          (fun x => calculate_hash fsys H x.path = some h)).length ∧
        f ∈ (processed.filter
          (fun x => calculate_hash fsys H x.path = some h)).map
            (setHash fsys H)) := by
  constructor
  · rintro ⟨g, hg, hhash, hfmem⟩
    rcases (mem_dup_output _ g).mp hg with ⟨p, hp, rfl, hlen⟩
    have hchar := (mem_optGroupFold _ _ _ _ _).mp hp
    have hp1 : p.1 = h := by
      have := mkDuplicateGroup_eq p
      rw [this] at hhash
      exact hhash
    subst hp1
    rw [mkDuplicateGroup_eq] at hfmem
    simp only at hfmem
    rw [hchar.2] at hfmem hlen
    rw [List.length_map] at hlen
    exact ⟨by omega, hfmem⟩
  · rintro ⟨hlen, hfmem⟩
    have hex : ∃ x ∈ processed,
        calculate_hash fsys H x.path = some h := by
      obtain ⟨x, hx⟩ := List.exists_mem_of_length_pos
        (by omega : 0 < (processed.filter
          (fun x => calculate_hash fsys H x.path = some h)).length)
      exact ⟨x, List.mem_of_mem_filter hx, by
        simpa using (List.mem_filter.mp hx).2⟩
    refine ⟨mkDuplicateGroup (h, (processed.filter
        (fun x => calculate_hash fsys H x.path = some h)).map
          (setHash fsys H)), ?_, ?_, ?_⟩
    · apply (mem_dup_output _ _).mpr
      refine ⟨(h, (processed.filter
          (fun x => calculate_hash fsys H x.path = some h)).map
            (setHash fsys H)), ?_, rfl, ?_⟩
      · exact (mem_optGroupFold _ _ _ _ _).mpr ⟨hex, rfl⟩
      · rw [List.length_map]; omega
    · rw [mkDuplicateGroup_eq]
    · rw [mkDuplicateGroup_eq]
      exact hfmem

/-- **C6.**  When fingerprinting is a pure total function of file
content (readable files, injective full hash on the scanned contents,
sizes matching contents), the parallel variant — for every completion
order of the worker pool — reports the same duplicate groups (same
hashes, same member sets) as the staged sequential detection. -/
theorem find_duplicates_parallel_agrees (fsys : FsPath → Option Content)
    (PH H : Content → String) (files order : List FileInfo)
    (hTot : ∀ f ∈ files, (fsys f.path).isSome)
    (hInj : HashInjOn fsys H files) (hSz : SizesAccurate fsys files)
    (hord : List.Perm order (candidateFiles files)) :
    ∀ h f,
      (∃ g ∈ find_duplicates fsys PH H files, g.hash = h ∧ f ∈ g.files) ↔
      (∃ g ∈ find_duplicates_parallel fsys H order,
        g.hash = h ∧ f ∈ g.files) := by
  intro h f
  rw [find_duplicates, fullHashGroups_eq, find_duplicates_parallel,
    parallelHashGroups]
  rw [dup_output_member_iff, dup_output_member_iff]
  have hpord := hord.filter
    (fun x => decide (calculate_hash fsys H x.path = some h))
  by_cases hc : 2 ≤ ((candidateFiles files).filter
      (fun x => calculate_hash fsys H x.path = some h)).length
  · rw [survivor_filter_eq_of_two fsys PH H files hInj hSz h hc]
    constructor
    · rintro ⟨hlen, hmem⟩
      refine ⟨?_, ((hpord.map (setHash fsys H)).mem_iff).mpr hmem⟩
      rw [hpord.length_eq]; omega
    · rintro ⟨hlen, hmem⟩
      exact ⟨hc, ((hpord.map (setHash fsys H)).mem_iff).mp hmem⟩
  · have hseq : ((survivorFiles fsys PH 4096 files).filter
        (fun x => calculate_hash fsys H x.path = some h)).length < 2 := by
      have := survivor_filter_length_le fsys PH 4096 files
        (fun x => calculate_hash fsys H x.path = some h)
      omega
    have hpar : ((order).filter
        (fun x => calculate_hash fsys H x.path = some h)).length < 2 := by
      rw [hpord.length_eq]; omega
    constructor
    · rintro ⟨hlen, -⟩; omega
    · rintro ⟨hlen, -⟩; omega

/-- Closed instantiation of `find_duplicates_parallel_agrees` on a
two-file filesystem, completion order reversed. -/
theorem find_duplicates_parallel_agrees_witness :
    (∃ g ∈ find_duplicates
          (fun p => if p.dir = ["d"] then some [7] else none)
          (fun c => Nat.repr (c.length)) (fun c => Nat.repr (c.length))
          [⟨⟨["d"], "a", ".bin"⟩, 1, none, 0, 0⟩,
           ⟨⟨["d"], "b", ".bin"⟩, 1, none, 0, 0⟩],
        g.hash = "1" ∧
          (⟨⟨["d"], "a", ".bin"⟩, 1, some "1", 0, 0⟩ : FileInfo) ∈
            g.files) ↔
      (∃ g ∈ find_duplicates_parallel
          (fun p => if p.dir = ["d"] then some [7] else none)
          (fun c => Nat.repr (c.length))
          ((candidateFiles
            [⟨⟨["d"], "a", ".bin"⟩, 1, none, 0, 0⟩,
             ⟨⟨["d"], "b", ".bin"⟩, 1, none, 0, 0⟩]).reverse),
        g.hash = "1" ∧
          (⟨⟨["d"], "a", ".bin"⟩, 1, some "1", 0, 0⟩ : FileInfo) ∈
            g.files) := by
  apply find_duplicates_parallel_agrees
  · intro fi hfi
    fin_cases hfi <;> simp
  · intro f g hf hg cf cg hcf hcg _
    have h1 : cf = [7] := by
      by_cases hd : f.path.dir = ["d"] <;> simp [hd] at hcf
      exact hcf.symm
    have h2 : cg = [7] := by
      by_cases hd : g.path.dir = ["d"] <;> simp [hd] at hcg
      exact hcg.symm
    rw [h1, h2]
  · intro f hf c hc
    have hc' : c = [7] := by
      fin_cases hf <;> (simp at hc; exact hc.symm)
    subst hc'
    fin_cases hf <;> rfl
  · exact List.reverse_perm _

/-! ### `file_mover.py`: planning

Planning only reads the filesystem, so the planners take a plan-time
snapshot `PlanFs`: the existing entries as (path key, byte size). -/

abbrev PlanFs := List (PathKey × Nat)

def pathExistsP (fs : PlanFs) (p : FsPath) : Bool :=
  decide (p.key ∈ fs.map Prod.fst)

/-- `stat().st_size` of an existing entry. -/
def statSize (fs : PlanFs) (p : FsPath) : Nat :=
  ((fs.find? (fun e => decide (e.1 = p.key))).map Prod.snd).getD 0

/-- The candidate `parent / f"{stem}_{counter}{suffix}"` tried by
`FileMover._get_unique_path`. -/
def uniqueCand (p : FsPath) (c : Nat) : FsPath :=
  { p with stem := p.stem ++ "_" ++ Nat.repr c }

theorem string_data_inj (s t : String) (h : s.data = t.data) : s = t := by
  cases s; cases t; exact congrArg String.mk h

theorem uniqueCand_key_inj (p : FsPath) (a b : Nat)
    (h : (uniqueCand p (a + 1)).key = (uniqueCand p (b + 1)).key) : a = b := by
  have hname := congrArg Prod.snd h
  simp only [uniqueCand, FsPath.key, FsPath.name] at hname
  have hd := congrArg String.data hname
  simp only [String.data_append] at hd
  have h₁ := List.append_cancel_right hd
  have h₂ := List.append_cancel_left h₁
  have := natRepr_injective (string_data_inj _ _ h₂)
  omega

/-- The collision loop always terminates: some candidate path is free,
because distinct counters give distinct names but the filesystem
snapshot is finite. -/
theorem uniqueCand_exists_free (fs : PlanFs) (p : FsPath) :
    ∃ c : Nat, ¬ (pathExistsP fs (uniqueCand p (c + 1)) = true) := by
  by_contra hall
  push_neg at hall
  have hmem : ∀ c : Nat, (uniqueCand p (c + 1)).key ∈ fs.map Prod.fst := by
    intro c
    have := hall c
    simpa [pathExistsP] using this
  have hinj : Set.InjOn (fun c : Nat => (uniqueCand p (c + 1)).key)
      (Finset.range (fs.length + 1)) := by
    intro a _ b _ hab
    exact uniqueCand_key_inj p a b hab
  have hsub : (Finset.range (fs.length + 1)).image
      (fun c : Nat => (uniqueCand p (c + 1)).key) ⊆
      (fs.map Prod.fst).toFinset := by
    intro k hk
    rcases Finset.mem_image.mp hk with ⟨c, _, rfl⟩
    exact List.mem_toFinset.mpr (hmem c)
  have hcard := Finset.card_le_card hsub
  rw [Finset.card_image_of_injOn hinj, Finset.card_range] at hcard
  have hlen : ((fs.map Prod.fst).toFinset).card ≤ fs.length := by
    calc ((fs.map Prod.fst).toFinset).card ≤ (fs.map Prod.fst).length :=
          List.toFinset_card_le _
      _ = fs.length := List.length_map fs Prod.fst
  omega

/-- `FileMover._get_unique_path`: return the path itself when it does
not exist, otherwise the first numeric-suffix candidate (counter
starting at 1) that does not exist. -/
def get_unique_path (fs : PlanFs) (p : FsPath) : FsPath :=
  if pathExistsP fs p then
    uniqueCand p (Nat.find (uniqueCand_exists_free fs p) + 1)
  else p

theorem get_unique_path_not_exists (fs : PlanFs) (p : FsPath) :
    pathExistsP fs (get_unique_path fs p) = false := by
  rw [get_unique_path]
  by_cases h : pathExistsP fs p = true
  · rw [if_pos h]
    have := Nat.find_spec (uniqueCand_exists_free fs p)
    simpa using this
  · rw [if_neg h]
    simpa using h

/-- `config.OrganizerConfig`, restricted to the fields the mover
reads. -/
structure OrganizerConfig where
  duplicates_archive : DirPath
  organized_archive : DirPath
  archive_base : DirPath
  use_recycle_bin : Bool := false
  dry_run : Bool := true
deriving DecidableEq, Repr

inductive MoveAction
  | move
  | copy
  | archive
  | recycle
deriving DecidableEq, Repr

/-- `file_mover.MoveOperation`; `status` is one of the strings used by
the source (`pending`, `success`, `failed`, `skipped`, `dry_run`). -/
structure MoveOperation where
  source : FsPath
  destination : FsPath
  action : MoveAction
  reason : String := ""
  status : String := "pending"
  error_message : String := ""
  size : Nat := 0
deriving DecidableEq, Repr

/-- The keep-order used by `plan_duplicate_cleanup`: newest first by
default, overridden for the three other strategies (an unknown strategy
falls back to newest). -/
def sortForKeep (strategy : String) (files : List FileInfo) :
    List FileInfo :=
  if strategy = "oldest" then
    stableSort (ascBy (fun f => f.modified_time)) files
  else if strategy = "largest" then
    stableSort (descBy (fun f => f.size)) files
  else if strategy = "smallest" then
    stableSort (ascBy (fun f => f.size)) files
  else
    stableSort (descBy (fun f => f.modified_time)) files

/-- `FileMover.plan_duplicate_cleanup`: keep the first file of the
strategy order, archive the rest to `duplicates_archive` under a
collision-free name.  (`files[0]` presumes a nonempty group; an empty
group contributes no operation here.) -/
def plan_duplicate_cleanup (cfg : OrganizerConfig) (fs : PlanFs)
    (duplicates : List DuplicateGroup) (keep_strategy : String) :
    List MoveOperation :=
  duplicates.foldl (fun ops group =>
    match sortForKeep keep_strategy group.files with
    | [] => ops
    | keep_file :: archive_files =>
      ops ++ archive_files.map (fun fi =>
        { source := fi.path
          destination := get_unique_path fs
            ⟨cfg.duplicates_archive, fi.path.stem, fi.path.suffix⟩
          action := if cfg.use_recycle_bin then MoveAction.recycle
            else MoveAction.archive
          reason := "중복 파일 (원본: " ++ keep_file.path.name ++ ")"
          size := fi.size })) []

/-- `classifier.ClassificationResult` (shared with the classifier
section below). -/
structure ClassificationResult where
  file_info : FileInfo
  category : String
  subcategory : Option String := none
  year : Option Nat := none
  month : Option Nat := none
  confidence : ℚ := 0
  keywords : List String := []
  target_path : Option FsPath := none
deriving DecidableEq

/-- `FileMover.plan_classification_organize`: move each classified file
to its (collision-free) target path, skipping results without a target
or already in place. -/
def plan_classification_organize (fs : PlanFs)
    (results : List ClassificationResult) : List MoveOperation :=
  results.foldl (fun ops result =>
    match result.target_path with
    | none => ops
    | some tp =>
      if result.file_info.path = tp then ops
      else
        ops ++ [{ source := result.file_info.path
                  destination := get_unique_path fs tp
                  action := MoveAction.move
                  reason := "분류: " ++ result.category
                  size := result.file_info.size }]) []

/-- `FileMover.plan_version_cleanup`: archive old versions into
`archive_base / "Versions"` under collision-free names, skipping
vanished sources (`keep_paths` is accepted but not read, as in the
source). -/
def plan_version_cleanup (cfg : OrganizerConfig) (fs : PlanFs)
    (keep_paths archive_paths : List FsPath) : List MoveOperation :=
  archive_paths.foldl (fun ops file_path =>
    if pathExistsP fs file_path then
      ops ++ [{ source := file_path
                destination := get_unique_path fs
                  ⟨cfg.archive_base ++ ["Versions"], file_path.stem,
                    file_path.suffix⟩
                action := if cfg.use_recycle_bin then MoveAction.recycle
                  else MoveAction.archive
                reason := "이전 버전 파일"
                size := if pathExistsP fs file_path then
                  statSize fs file_path else 0 }]
    else ops) []

theorem foldl_forall_mem (step : List β → α → List β) (P : β → Prop)
    (hstep : ∀ acc x, (∀ o ∈ acc, P o) → ∀ o ∈ step acc x, P o)
    (xs : List α) :
    ∀ a, (∀ o ∈ a, P o) → ∀ o ∈ xs.foldl step a, P o := by
  induction xs with
  | nil => intro a ha o ho; exact ha o ho
  | cons x xs ih =>
    intro a ha o ho
    exact ih (step a x) (hstep a x ha) o ho

/-- **C1 (amended).**  Every operation emitted by any of the three
planners has a destination that does not exist on the filesystem at
plan time (collisions with existing paths are resolved by the numeric
suffix).  Distinctness of destinations *across* the operations of one
plan does not hold — see the counterexample — because
`_get_unique_path` consults only the filesystem, not previously planned
operations. -/
theorem planned_destinations_fresh (cfg : OrganizerConfig) (fs : PlanFs)
    (duplicates : List DuplicateGroup) (keep_strategy : String)
    (results : List ClassificationResult)
    (keeps archives : List FsPath) :
    (∀ op ∈ plan_duplicate_cleanup cfg fs duplicates keep_strategy,
      pathExistsP fs op.destination = false) ∧
    (∀ op ∈ plan_version_cleanup cfg fs keeps archives,
      pathExistsP fs op.destination = false) ∧
    (∀ op ∈ plan_classification_organize fs results,
      pathExistsP fs op.destination = false) := by
  refine ⟨?_, ?_, ?_⟩
  · refine foldl_forall_mem _ _ ?_ duplicates [] (by simp)
    intro acc g hacc o ho
    cases hs : sortForKeep keep_strategy g.files with
    | nil =>
      rw [show (match sortForKeep keep_strategy g.files with
        | [] => acc
        | keep_file :: archive_files => acc ++ archive_files.map _) = acc by
          rw [hs]] at ho
      exact hacc o ho
    | cons keep rest =>
      simp only [hs] at ho
      rcases List.mem_append.mp ho with h | h
      · exact hacc o h
      · rcases List.mem_map.mp h with ⟨fi, -, rfl⟩
        exact get_unique_path_not_exists fs _
  · refine foldl_forall_mem _ _ ?_ archives [] (by simp)
    intro acc p hacc o ho
    by_cases hex : pathExistsP fs p = true
    · simp only [hex, if_true] at ho
      rcases List.mem_append.mp ho with h | h
      · exact hacc o h
      · rcases List.mem_singleton.mp h with rfl
        exact get_unique_path_not_exists fs _
    · simp only [Bool.not_eq_true] at hex
      simp only [hex, Bool.false_eq_true, if_false] at ho
      exact hacc o ho
  · refine foldl_forall_mem _ _ ?_ results [] (by simp)
    intro acc r hacc o ho
    cases ht : r.target_path with
    | none =>
      simp only [ht] at ho
      exact hacc o ho
    | some tp =>
      simp only [ht] at ho
      by_cases heq : r.file_info.path = tp
      · simp only [heq, if_pos rfl] at ho
        exact hacc o ho
      · rw [if_neg heq] at ho
        rcases List.mem_append.mp ho with h | h
        · exact hacc o h
        · rcases List.mem_singleton.mp h with rfl
          exact get_unique_path_not_exists fs _

/-- Closed instantiation of `planned_destinations_fresh`: on an empty
filesystem, the planned archive destination of a duplicate of
`x.txt` does not exist at plan time. -/
theorem planned_destinations_fresh_witness :
    pathExistsP []
      (MoveOperation.destination
        { source := ⟨["d2"], "x", ".txt"⟩
          destination := ⟨["arch"], "x", ".txt"⟩
          action := MoveAction.archive
          reason := "중복 파일 (원본: x.txt)"
          status := "pending"
          error_message := ""
          size := 1 }) = false := by
  have h := (planned_destinations_fresh
    ⟨["arch"], ["org"], ["base"], false, true⟩ []
    [⟨"h", [⟨⟨["d1"], "x", ".txt"⟩, 1, none, 3, 0⟩,
            ⟨⟨["d2"], "x", ".txt"⟩, 1, none, 2, 0⟩,
            ⟨⟨["d3"], "x", ".txt"⟩, 1, none, 1, 0⟩], 3⟩]
    "newest" [] [] []).1
  exact h _ (by decide)

/-- **C1 (counterexample).**  As stated, the claim is false: two
duplicates of equally named files planned onto an empty archive get the
*same* destination, since `_get_unique_path` checks only the (as yet
unchanged) filesystem. -/
theorem plan_duplicate_cleanup_shared_destination :
    ¬ List.Pairwise (fun o₁ o₂ => o₁.destination ≠ o₂.destination)
      (plan_duplicate_cleanup
        ⟨["arch"], ["org"], ["base"], false, true⟩ []
        [⟨"h", [⟨⟨["d1"], "x", ".txt"⟩, 1, none, 3, 0⟩,
                ⟨⟨["d2"], "x", ".txt"⟩, 1, none, 2, 0⟩,
                ⟨⟨["d3"], "x", ".txt"⟩, 1, none, 1, 0⟩], 3⟩]
        "newest") := by
  decide

/-! ### `file_mover.py`: execution and reports

Execution mutates the filesystem, modelled as the set of existing file
entries plus the set of directories.  Directory creation
(`mkdir(parents=True, exist_ok=True)`) is modelled as always
succeeding; `shutil.move`/`copy2` fail when the source is missing. -/

structure Filesystem where
  files : List PathKey
  dirs : List DirPath
deriving DecidableEq, Repr

/-- `str(path)` as used in error records. -/
def FsPath.render (p : FsPath) : String :=
  String.intercalate "/" (p.dir ++ [p.name])

/-- The `results` dict of `execute_operations`. -/
structure ExecResults where
  total : Nat
  success : Nat
  failed : Nat
  skipped : Nat
  dry_run : Bool
  space_freed : Nat
  errors : List (String × String)
deriving DecidableEq, Repr

structure ExecState where
  fs : Filesystem
  results : ExecResults
  history : List MoveOperation
deriving DecidableEq, Repr

/-- `FileMover._ensure_directory` (modelled as always succeeding). -/
def ensure_directory (fs : Filesystem) (d : DirPath) : Filesystem :=
  if d ∈ fs.dirs then fs else { fs with dirs := fs.dirs ++ [d] }

/-- `FileMover._execute_move`: create the destination directory, then
move; fails if the source does not exist. -/
def execute_move (fs : Filesystem) (op : MoveOperation) :
    Filesystem × MoveOperation :=
  let fs' := ensure_directory fs op.destination.dir
  if op.source.key ∈ fs'.files then
    ({ fs' with files := (fs'.files.erase op.source.key) ++
        [op.destination.key] },
     { op with status := "success" })
  else
    (fs', { op with status := "failed", error_message := "이동 실패" })

/-- `FileMover._execute_copy`. -/
def execute_copy (fs : Filesystem) (op : MoveOperation) :
    Filesystem × MoveOperation :=
  let fs' := ensure_directory fs op.destination.dir
  if op.source.key ∈ fs'.files then
    ({ fs' with files := fs'.files ++ [op.destination.key] },
     { op with status := "success" })
  else
    (fs', { op with status := "failed", error_message := "복사 실패" })

/-- `FileMover._move_to_recycle_bin`: succeeds only when a trash
facility is available and the file exists (a raise is caught and
reported as failure). -/
def move_to_recycle_bin (recycleAvail : Bool) (fs : Filesystem)
    (p : FsPath) : Filesystem × Bool :=
  if recycleAvail then
    if p.key ∈ fs.files then
      ({ fs with files := fs.files.erase p.key }, true)
    else (fs, false)
  else (fs, false)

/-- One iteration of the loop in `FileMover.execute_operations`. -/
def exec_step (recycleAvail : Bool) (dry_run : Bool) (st : ExecState)
    (op : MoveOperation) : ExecState :=
  if dry_run then
    { fs := st.fs
      results := { st.results with
        success := st.results.success + 1
        space_freed := st.results.space_freed + op.size }
      history := st.history ++ [{ op with status := "dry_run" }] }
  else
    match op.action with
    | MoveAction.recycle =>
      let rec_result := move_to_recycle_bin recycleAvail st.fs op.source
      if rec_result.2 then
        { fs := rec_result.1
          results := { st.results with
            success := st.results.success + 1
            space_freed := st.results.space_freed + op.size }
          history := st.history ++ [{ op with status := "success" }] }
      else
        let mv := execute_move st.fs { op with action := MoveAction.archive }
        if mv.2.status = "success" then
          { fs := mv.1
            results := { st.results with
              success := st.results.success + 1
              space_freed := st.results.space_freed + op.size }
            history := st.history ++ [mv.2] }
        else
          { fs := mv.1
            results := { st.results with
              failed := st.results.failed + 1
              errors := st.results.errors ++
                [(op.source.render, mv.2.error_message)] }
            history := st.history ++ [mv.2] }
    | MoveAction.move =>
      let mv := execute_move st.fs op
      if mv.2.status = "success" then
        { fs := mv.1
          results := { st.results with success := st.results.success + 1 }
          history := st.history ++ [mv.2] }
      else
        { fs := mv.1
          results := { st.results with
            failed := st.results.failed + 1
            errors := st.results.errors ++
              [(op.source.render, mv.2.error_message)] }
          history := st.history ++ [mv.2] }
    | MoveAction.archive =>
      let mv := execute_move st.fs op
      if mv.2.status = "success" then
        { fs := mv.1
          results := { st.results with
            success := st.results.success + 1
            space_freed := st.results.space_freed + op.size }
          history := st.history ++ [mv.2] }
      else
        { fs := mv.1
          results := { st.results with
            failed := st.results.failed + 1
            errors := st.results.errors ++
              [(op.source.render, mv.2.error_message)] }
          history := st.history ++ [mv.2] }
    | MoveAction.copy =>
      let cp := execute_copy st.fs op
      if cp.2.status = "success" then
        { fs := cp.1
          results := { st.results with success := st.results.success + 1 }
          history := st.history ++ [cp.2] }
      else
        { fs := cp.1
          results := { st.results with failed := st.results.failed + 1 }
          history := st.history ++ [cp.2] }

/-- `FileMover.execute_operations`. -/
def execute_operations (recycleAvail dry_run : Bool) (fs : Filesystem)
    (operations : List MoveOperation) : ExecState :=
  operations.foldl (exec_step recycleAvail dry_run)
    { fs := fs
      results := { total := operations.length, success := 0, failed := 0,
                   skipped := 0, dry_run := dry_run, space_freed := 0,
                   errors := [] }
      history := [] }

/-- The content of `FileMover.get_dry_run_report`: the grouping by
action, the per-action counts, the rows shown (first 20 per action:
source, destination, size, reason) and the total size accumulated over
the shown rows.  The textual rendering is a function of this data. -/
structure DryRunReport where
  total : Nat
  sections : List (MoveAction × Nat × List (FsPath × FsPath × Nat × String))
  shown_total : Nat

def get_dry_run_report (operations : List MoveOperation) : DryRunReport :=
  let by_action := groupListBy (fun op => op.action) operations
  { total := operations.length
    sections := by_action.map (fun g =>
      (g.1, g.2.length,
        (g.2.take 20).map (fun op =>
          (op.source, op.destination, op.size, op.reason))))
    shown_total := (by_action.map (fun g =>
      ((g.2.take 20).map (fun op => op.size)).sum)).sum }

def markDryRun (op : MoveOperation) : MoveOperation :=
  { op with status := "dry_run" }

theorem exec_step_dry (recycleAvail : Bool) (st : ExecState)
    (op : MoveOperation) :
    exec_step recycleAvail true st op =
      { fs := st.fs
        results := { st.results with
          success := st.results.success + 1
          space_freed := st.results.space_freed + op.size }
        history := st.history ++ [{ op with status := "dry_run" }] } := rfl

theorem exec_dry_run_fold (recycleAvail : Bool) (ops : List MoveOperation) :
    ∀ st : ExecState,
      ops.foldl (exec_step recycleAvail true) st =
        { fs := st.fs
          results := { st.results with
            success := st.results.success + ops.length
            space_freed := st.results.space_freed +
              (ops.map (fun o => o.size)).sum }
          history := st.history ++ ops.map markDryRun } := by
  induction ops with
  | nil =>
    intro st
    obtain ⟨f, r, h⟩ := st
    simp
  | cons op ops ih =>
    intro st
    rw [List.foldl_cons, exec_step_dry, ih]
    obtain ⟨f, r, h⟩ := st
    simp only [ExecState.mk.injEq, ExecResults.mk.injEq, List.map_cons,
      List.sum_cons, List.length_cons, List.append_assoc,
      List.singleton_append, markDryRun, eq_self_iff_true, true_and,
      and_true]
    omega

theorem insGroup_map [DecidableEq κ] (k : κ) (x : α) (m : α → α)
    (acc : List (κ × List α)) :
    insGroup k (m x) (acc.map (fun g => (g.1, g.2.map m))) =
      (insGroup k x acc).map (fun g => (g.1, g.2.map m)) := by
  induction acc with
  | nil => simp [insGroup]
  | cons p rest ih =>
    obtain ⟨k₀, l₀⟩ := p
    by_cases h : k = k₀
    · simp [insGroup, h]
    · simp [insGroup, h, ih]

theorem optGroupFold_map_of_key [DecidableEq κ] (key : α → κ) (m : α → α)
    (hkey : ∀ x, key (m x) = key x) (xs : List α) :
    ∀ acc : List (κ × List α),
      optGroupFold (fun x => some (key x)) id (xs.map m)
          (acc.map (fun g => (g.1, g.2.map m))) =
        (optGroupFold (fun x => some (key x)) id xs acc).map
          (fun g => (g.1, g.2.map m)) := by
  induction xs with
  | nil => intro acc; simp [optGroupFold]
  | cons x xs ih =>
    intro acc
    simp only [List.map_cons, optGroupFold, List.foldl_cons, id_eq, hkey x]
    have := ih (insGroup (key x) x acc)
    simp only [optGroupFold] at this
    rw [insGroup_map (key x) x m acc]
    exact this

theorem groupListBy_map_of_key [DecidableEq κ] (key : α → κ) (m : α → α)
    (hkey : ∀ x, key (m x) = key x) (xs : List α) :
    groupListBy key (xs.map m) =
      (groupListBy key xs).map (fun g => (g.1, g.2.map m)) := by
  have := optGroupFold_map_of_key key m hkey xs []
  simpa [groupListBy] using this

theorem get_dry_run_report_mark (ops : List MoveOperation) :
    get_dry_run_report (ops.map markDryRun) = get_dry_run_report ops := by
  have hkey : ∀ op : MoveOperation, (markDryRun op).action = op.action :=
    fun op => rfl
  rw [get_dry_run_report, get_dry_run_report,
    groupListBy_map_of_key (fun op => op.action) markDryRun hkey ops]
  simp only [List.length_map, List.map_map]
  refine congrArg₂ (fun a b => DryRunReport.mk ops.length a b) ?_ ?_
  · apply List.map_congr_left
    intro g _
    simp only [Function.comp, List.length_map, ← List.map_take,
      List.map_map]
    rfl
  · apply congrArg List.sum
    apply List.map_congr_left
    intro g _
    simp only [Function.comp, ← List.map_take, List.map_map]
    rfl

/-- **C3.**  Executing a plan in dry-run mode does not mutate the
filesystem (no file is moved, copied or recycled, no directory is
created): the state is returned unchanged, whatever the trash facility.
Running the identical dry-run plan again against the untouched
filesystem produces the identical results dictionary, and the dry-run
report over the once-processed operations equals the report over the
original plan. -/
theorem dry_run_is_pure_and_stable (recycleAvail : Bool) (fs : Filesystem)
    (ops : List MoveOperation) :
    (execute_operations recycleAvail true fs ops).fs = fs ∧
    (execute_operations recycleAvail true fs ops).history =
      ops.map markDryRun ∧
    (execute_operations recycleAvail true fs
        (execute_operations recycleAvail true fs ops).history).fs = fs ∧
    (execute_operations recycleAvail true fs
        (execute_operations recycleAvail true fs ops).history).results =
      (execute_operations recycleAvail true fs ops).results ∧
    get_dry_run_report
        (execute_operations recycleAvail true fs ops).history =
      get_dry_run_report ops := by
  have hrun : ∀ l : List MoveOperation,
      execute_operations recycleAvail true fs l =
        { fs := fs
          results := { total := l.length, success := l.length, failed := 0,
                       skipped := 0, dry_run := true,
                       space_freed := (l.map (fun o => o.size)).sum,
                       errors := [] }
          history := l.map markDryRun } := by
    intro l
    rw [execute_operations, exec_dry_run_fold]
    simp
  have hsize : ∀ l : List MoveOperation,
      ((l.map markDryRun).map (fun o => o.size)).sum =
        (l.map (fun o => o.size)).sum := by
    intro l
    rw [List.map_map]
    rfl
  refine ⟨?_, ?_, ?_, ?_, ?_⟩
  · rw [hrun]
  · rw [hrun]
  · rw [hrun, hrun]
  · rw [hrun, hrun]
    simp [hsize]
    rfl
  · rw [hrun]
    exact get_dry_run_report_mark ops

/-! ### `organizer.py`: duplicate exclusion before classification -/

/-- The keep-order used in `FileOrganizer.classify_files` (an unknown
strategy leaves the group's order unchanged there). -/
def sortForExclusion (strategy : String) (files : List FileInfo) :
    List FileInfo :=
  if strategy = "newest" then
    stableSort (descBy (fun f => f.modified_time)) files
  else if strategy = "oldest" then
    stableSort (ascBy (fun f => f.modified_time)) files
  else if strategy = "largest" then
    stableSort (descBy (fun f => f.size)) files
  else if strategy = "smallest" then
    stableSort (ascBy (fun f => f.size)) files
  else files

/-- The non-keeper paths of one duplicate group: everything after the
first file of the keep-order. -/
def nonKeeperPaths (strategy : String) (g : DuplicateGroup) :
    List FsPath :=
  match sortForExclusion strategy g.files with
  | [] => []
  | _ :: rest => rest.map (fun f => f.path)

/-- The `exclude_paths` set built in `FileOrganizer.classify_files`
(modelled as a list; only membership is consumed). -/
def excludePaths (duplicates : List DuplicateGroup)
    (keep_strategy : String) : List FsPath :=
  duplicates.foldl (fun ex group =>
    match sortForExclusion keep_strategy group.files with
    | [] => ex
    | _ :: rest => ex ++ rest.map (fun f => f.path)) []

/-- The file list actually passed to the classifier by
`FileOrganizer.classify_files`. -/
def classificationInput (files : List FileInfo)
    (duplicates : List DuplicateGroup) (exclude_duplicates : Bool)
    (keep_strategy : String) : List FileInfo :=
  if exclude_duplicates && !duplicates.isEmpty then
    files.filter
      (fun f => decide (f.path ∉ excludePaths duplicates keep_strategy))
  else files

theorem foldl_append_gen (gen : α → List β) (xs : List α) :
    ∀ a, xs.foldl (fun acc x => acc ++ gen x) a = a ++ (xs.map gen).flatten := by
  induction xs with
  | nil => intro a; simp
  | cons x xs ih =>
    intro a
    rw [List.foldl_cons, ih, List.map_cons, List.flatten_cons,
      List.append_assoc]

theorem excludePaths_eq (duplicates : List DuplicateGroup)
    (keep_strategy : String) :
    excludePaths duplicates keep_strategy =
      (duplicates.map (nonKeeperPaths keep_strategy)).flatten := by
  rw [excludePaths]
  have hbody : (fun (ex : List FsPath) group =>
      match sortForExclusion keep_strategy group.files with
      | [] => ex
      | _ :: rest => ex ++ rest.map (fun f => f.path)) =
        fun ex group => ex ++ nonKeeperPaths keep_strategy group := by
    funext ex group
    rw [nonKeeperPaths]
    cases sortForExclusion keep_strategy group.files <;> simp
  rw [hbody, foldl_append_gen]
  simp

/-- **C5.**  With duplicate exclusion enabled and one of the four keep
strategies active, every member of a duplicate group other than the
kept (first-in-keep-order) one has its path in `exclude_paths` and is
absent from the classification input, so no non-keeper file is ever
classified. -/
theorem non_keepers_excluded_from_classification
    (files : List FileInfo) (duplicates : List DuplicateGroup)
    (keep_strategy : String) (g : DuplicateGroup) (f : FileInfo)
    (hstrat : keep_strategy ∈ ["newest", "oldest", "largest", "smallest"])
    (hg : g ∈ duplicates)
    (hf : f ∈ (sortForExclusion keep_strategy g.files).tail) :
    f.path ∈ excludePaths duplicates keep_strategy ∧
      f ∉ classificationInput files duplicates true keep_strategy := by
  have hmem : f.path ∈ excludePaths duplicates keep_strategy := by
    rw [excludePaths_eq, List.mem_flatten]
    refine ⟨nonKeeperPaths keep_strategy g,
      List.mem_map_of_mem (nonKeeperPaths keep_strategy) hg, ?_⟩
    rw [nonKeeperPaths]
    cases hs : sortForExclusion keep_strategy g.files with
    | nil => rw [hs] at hf; cases hf
    | cons keep rest =>
      rw [hs] at hf
      exact List.mem_map_of_mem (fun f => f.path) hf
  refine ⟨hmem, ?_⟩
  intro hin
  rw [classificationInput] at hin
  have hne : duplicates.isEmpty = false :=
    List.isEmpty_eq_false_iff_exists_mem.mpr ⟨g, hg⟩
  rw [hne] at hin
  simp only [Bool.not_false, Bool.and_true, if_true] at hin
  have := (List.mem_filter.mp hin).2
  simp only [decide_eq_true_eq] at this
  exact this hmem

/-- Closed instantiation of `non_keepers_excluded_from_classification`:
with two duplicates of the same content, the older one is excluded from
classification under the `newest` strategy. -/
theorem non_keepers_excluded_from_classification_witness :
    (⟨⟨["d2"], "y", ".txt"⟩, 1, none, 1, 0⟩ : FileInfo).path ∈
      excludePaths
        [⟨"h", [⟨⟨["d1"], "y", ".txt"⟩, 1, none, 2, 0⟩,
                ⟨⟨["d2"], "y", ".txt"⟩, 1, none, 1, 0⟩], 2⟩] "newest" ∧
    (⟨⟨["d2"], "y", ".txt"⟩, 1, none, 1, 0⟩ : FileInfo) ∉
      classificationInput
        [⟨⟨["d1"], "y", ".txt"⟩, 1, none, 2, 0⟩,
         ⟨⟨["d2"], "y", ".txt"⟩, 1, none, 1, 0⟩]
        [⟨"h", [⟨⟨["d1"], "y", ".txt"⟩, 1, none, 2, 0⟩,
                ⟨⟨["d2"], "y", ".txt"⟩, 1, none, 1, 0⟩], 2⟩]
        true "newest" :=
  non_keepers_excluded_from_classification
    [⟨⟨["d1"], "y", ".txt"⟩, 1, none, 2, 0⟩,
     ⟨⟨["d2"], "y", ".txt"⟩, 1, none, 1, 0⟩]
    [⟨"h", [⟨⟨["d1"], "y", ".txt"⟩, 1, none, 2, 0⟩,
            ⟨⟨["d2"], "y", ".txt"⟩, 1, none, 1, 0⟩], 2⟩]
    "newest"
    ⟨"h", [⟨⟨["d1"], "y", ".txt"⟩, 1, none, 2, 0⟩,
           ⟨⟨["d2"], "y", ".txt"⟩, 1, none, 1, 0⟩], 2⟩
    ⟨⟨["d2"], "y", ".txt"⟩, 1, none, 1, 0⟩
    (by decide) (by decide) (by decide)

/-! ### `version_manager.py`: filename normalization

The eleven `VERSION_PATTERNS` regexes are embedded as executable
matchers over `List Char`.  Each matcher, applied at a position,
returns the length of the (leftmost-at-this-position, greedy, with the
same backtracking regex `re` performs) match, or `none`.  `re.sub`'s
scan — leftmost match, remove, continue after it — is `subAllOne`.
`\s` is modelled by the ASCII whitespace characters. -/

def isSepChar (c : Char) : Bool :=
  c = '_' || c = '-' || c = ' ' || c = '\t' || c = '\n' || c = '\r' ||
    c = '\x0b' || c = '\x0c'

/-- Case-insensitive literal match; returns the remaining input. -/
def matchLitCI : List Char → List Char → Option (List Char)
  | [], s => some s
  | _ :: _, [] => none
  | l :: ls, c :: cs =>
    if c.toLower = l.toLower then matchLitCI ls cs else none

def takeDigitsCount (s : List Char) : Nat :=
  (s.takeWhile (fun c => c.isDigit)).length

/-- A fixed-length character-class shape (`\d{4}[-_]` …). -/
def matchShape : List (Char → Bool) → List Char → Bool
  | [], _ => true
  | _ :: _, [] => false
  | p :: ps, c :: cs => p c && matchShape ps cs

/-- The optional one-character class `[_\-\s]?` before a core pattern:
greedy, with backtracking to the empty alternative. -/
def withOptSep (core : List Char → Option Nat) (s : List Char) :
    Option Nat :=
  match s with
  | [] => core []
  | c :: cs =>
    if isSepChar c then
      match core cs with
      | some n => some (n + 1)
      | none => core s
    else core s

/-- `v(\d+)` (case-insensitive). -/
def coreVNum : List Char → Option Nat
  | [] => none
  | c :: cs =>
    if c.toLower = 'v' then
      if takeDigitsCount cs = 0 then none else some (1 + takeDigitsCount cs)
    else none

/-- First alternative of an ordered alternation that matches, as `re`
alternation does. -/
def coreAlts (alts : List (List Char)) (s : List Char) : Option Nat :=
  match alts with
  | [] => none
  | a :: rest =>
    match matchLitCI a s with
    | some _ => some a.length
    | none => coreAlts rest s

/-- `rev\d*|revision\d*`: the first alternative matches whenever `rev`
does (zero digits allowed), so `revision` loses its `ision`. -/
def coreRev (s : List Char) : Option Nat :=
  match matchLitCI ("rev".data) s with
  | some rest => some (3 + takeDigitsCount rest)
  | none => none

def matchVNum : List Char → Option Nat := withOptSep coreVNum

def matchParenNum : List Char → Option Nat
  | '(' :: cs =>
    if takeDigitsCount cs = 0 then none
    else
      match cs.drop (takeDigitsCount cs) with
      | ')' :: _ => some (takeDigitsCount cs + 2)
      | _ => none
  | _ => none

def matchBracketNum : List Char → Option Nat
  | '[' :: cs =>
    if takeDigitsCount cs = 0 then none
    else
      match cs.drop (takeDigitsCount cs) with
      | ']' :: _ => some (takeDigitsCount cs + 2)
      | _ => none
  | _ => none

def isDashUnd (c : Char) : Bool := c = '_' || c = '-'

/-- `[_\-](\d{8})`. -/
def matchDate8 : List Char → Option Nat
  | [] => none
  | c :: cs =>
    if isDashUnd c && matchShape (List.replicate 8 (fun c => c.isDigit)) cs
    then some 9 else none

/-- `[_\-](\d{4}[-_]\d{2}[-_]\d{2})`. -/
def matchDateDashed : List Char → Option Nat
  | [] => none
  | c :: cs =>
    if isDashUnd c && matchShape
        [(fun c => c.isDigit), (fun c => c.isDigit), (fun c => c.isDigit),
         (fun c => c.isDigit), isDashUnd, (fun c => c.isDigit),
         (fun c => c.isDigit), isDashUnd, (fun c => c.isDigit),
         (fun c => c.isDigit)] cs
    then some 11 else none

def matchStatusFinal : List Char → Option Nat :=
  withOptSep (coreAlts
    ["최종".data, "final".data, "수정".data, "수정본".data, "완료".data,
     "완성".data])

def matchStatusDraft : List Char → Option Nat :=
  withOptSep (coreAlts ["초안".data, "draft".data, "임시".data, "temp".data])

def matchStatusBackup : List Char → Option Nat :=
  withOptSep (coreAlts ["백업".data, "backup".data, "bak".data])

def matchStatusCopy : List Char → Option Nat :=
  withOptSep (coreAlts ["복사본".data, "copy".data, "사본".data])

def matchStatusEnglish : List Char → Option Nat :=
  withOptSep (coreAlts ["old".data, "new".data, "latest".data,
    "original".data])

def matchRev : List Char → Option Nat := withOptSep coreRev

/-- The compiled pattern list, in source order. -/
def versionMatchers : List (List Char → Option Nat) :=
  [matchVNum, matchParenNum, matchBracketNum, matchDate8, matchDateDashed,
   matchStatusFinal, matchStatusDraft, matchStatusBackup, matchStatusCopy,
   matchStatusEnglish, matchRev]

/-- `pattern.sub('', s)`: scan left to right, remove each leftmost
match, continue after it.  Structural fuel (`s.length` suffices: every
step consumes at least one character). -/
def subAllGo (m : List Char → Option Nat) : Nat → List Char → List Char
  | _, [] => []
  | 0, s => s
  | fuel + 1, c :: cs =>
    match m (c :: cs) with
    | some n =>
      if n = 0 then c :: subAllGo m fuel cs
      else subAllGo m fuel ((c :: cs).drop n)
    | none => c :: subAllGo m fuel cs

def subAllOne (m : List Char → Option Nat) (s : List Char) : List Char :=
  subAllGo m s.length s

/-- The sequential application of all eleven patterns. -/
def removeVersionMarkers (s : List Char) : List Char :=
  versionMatchers.foldl (fun acc m => subAllOne m acc) s

/-- `re.sub(r'[_\-\s]+', '_', s)`: collapse every separator run to a
single underscore (tracking whether the previous character was part of
a run). -/
def collapseGo : Bool → List Char → List Char
  | _, [] => []
  | prevSep, c :: cs =>
    if isSepChar c then
      if prevSep then collapseGo true cs else '_' :: collapseGo true cs
    else c :: collapseGo false cs

def collapseSeps (s : List Char) : List Char := collapseGo false s

def isStripChar (c : Char) : Bool := c = '_' || c = '-' || c = ' '

/-- `str.strip('_- ')`. -/
def stripEnds (s : List Char) : List Char :=
  List.rdropWhile isStripChar (s.dropWhile isStripChar)

/-- `VersionManager._extract_base_name`: remove all version markers,
canonicalize separators, trim; fall back to the input when nothing is
left. -/
def extract_base_name (filename : String) : String :=
  let base := stripEnds (collapseSeps (removeVersionMarkers filename.data))
  if base.isEmpty then filename else String.mk base

/-! ### `version_manager.py`: version-group analysis -/

/-- Whether `tok` occurs (case-insensitively) anywhere in `s`, i.e.
`re.search` of the literal alternation member. -/
def containsTokenCI (tok : List Char) (s : List Char) : Bool :=
  (List.range (s.length + 1)).any (fun i => (matchLitCI tok (s.drop i)).isSome)

/-- The `status` component of `_extract_version_info` (the only part
its `analyze_version_group` caller reads): `final` before `draft`
before `backup`, each an `re.search` for an alternation of literals. -/
def statusOf (filename : String) : Option String :=
  if containsTokenCI "최종".data filename.data ||
      containsTokenCI "final".data filename.data ||
      containsTokenCI "완료".data filename.data ||
      containsTokenCI "완성".data filename.data then some "final"
  else if containsTokenCI "초안".data filename.data ||
      containsTokenCI "draft".data filename.data ||
      containsTokenCI "임시".data filename.data ||
      containsTokenCI "temp".data filename.data then some "draft"
  else if containsTokenCI "백업".data filename.data ||
      containsTokenCI "backup".data filename.data ||
      containsTokenCI "bak".data filename.data then some "backup"
  else none

/-- `version_manager.VersionGroup`. -/
structure VersionGroup where
  base_name : String
  files : List FileInfo := []
  extension : String := ""
deriving DecidableEq, Repr

/-- The fields of the analysis dict built by
`VersionManager.analyze_version_group` that the recommendation policy
populates. -/
structure VersionAnalysis where
  base_name : String
  extension : String
  total_files : Nat
  recommended_keep : Option FsPath
  recommended_archive : List FsPath
deriving DecidableEq, Repr

/-- `VersionManager.analyze_version_group`: sort newest first; the
last `final`-status member (loop order) wins, else the newest member;
everything whose path differs from the keep is recommended for
archival. -/
def analyze_version_group (g : VersionGroup) : VersionAnalysis :=
  let sorted := stableSort (descBy (fun f => f.modified_time)) g.files
  let final_version := sorted.foldl
    (fun acc f => if statusOf f.path.stem = some "final" then some f else acc)
    none
  let keep : Option FsPath :=
    match final_version with
    | some f => some f.path
    | none => sorted.head?.map (fun f => f.path)
  { base_name := g.base_name
    extension := g.extension
    total_files := sorted.length
    recommended_keep := keep
    recommended_archive :=
      (sorted.filter (fun f => decide (some f.path ≠ keep))).map
        (fun f => f.path) }

/-! ### Idempotence machinery for `_extract_base_name` -/

/-- No version pattern matches at this position. -/
def matchersNoneAt (s : List Char) : Bool :=
  versionMatchers.all (fun m => (m s).isNone)

/-- No version pattern matches anywhere in `s`. -/
def noMarker (s : List Char) : Bool :=
  (List.range (s.length + 1)).all (fun i => matchersNoneAt (s.drop i))

theorem subAllGo_eq_self (m : List Char → Option Nat) :
    ∀ (s : List Char) (fuel : Nat),
      (∀ i, (m (s.drop i)).isNone = true) → subAllGo m fuel s = s := by
  intro s
  induction s with
  | nil => intro fuel _; cases fuel <;> rfl
  | cons c cs ih =>
    intro fuel h
    cases fuel with
    | zero => rfl
    | succ fuel =>
      have h0 := h 0
      simp only [List.drop_zero] at h0
      simp only [subAllGo]
      cases hm : m (c :: cs) with
      | some n => rw [hm] at h0; simp at h0
      | none =>
        simp only
        refine congrArg (fun l => c :: l) ?_
        refine ih fuel (fun i => ?_)
        have := h (i + 1)
        simpa using this

theorem removeVersionMarkers_eq_self (s : List Char)
    (h : ∀ m ∈ versionMatchers, ∀ i, (m (s.drop i)).isNone = true) :
    removeVersionMarkers s = s := by
  rw [removeVersionMarkers]
  have hgen : ∀ ms : List (List Char → Option Nat),
      (∀ m ∈ ms, ∀ i, (m (s.drop i)).isNone = true) →
        ms.foldl (fun acc m => subAllOne m acc) s = s := by
    intro ms
    induction ms with
    | nil => intro _; rfl
    | cons m ms ih =>
      intro hh
      rw [List.foldl_cons,
        show subAllOne m s = s from
          subAllGo_eq_self m s s.length (hh m (List.mem_cons_self m ms))]
      exact ih (fun m' hm' => hh m' (List.mem_cons_of_mem m hm'))
  exact hgen versionMatchers h

theorem noMarker_forall (s : List Char) (h : noMarker s = true) :
    ∀ m ∈ versionMatchers, ∀ i, (m (s.drop i)).isNone = true := by
  intro m hm i
  by_cases hi : i ≤ s.length
  · have hAt := (List.all_eq_true.mp h) i (List.mem_range.mpr (by omega))
    exact (List.all_eq_true.mp hAt) m hm
  · have hdrop : s.drop i = [] := List.drop_eq_nil_of_le (by omega)
    have hAt := (List.all_eq_true.mp h) s.length
      (List.mem_range.mpr (by omega))
    have hL := (List.all_eq_true.mp hAt) m hm
    rw [List.drop_length] at hL
    rw [hdrop]
    exact hL

/-- Separator sanity of a collapsed string: every separator is an
underscore and no two separators are adjacent. -/
def CleanSeps (z : List Char) : Prop :=
  (∀ c ∈ z, isSepChar c = true → c = '_') ∧
    z.Chain' (fun a b => isSepChar a = false ∨ isSepChar b = false)

theorem collapseGo_mem_sep :
    ∀ (s : List Char) (prev : Bool), ∀ c ∈ collapseGo prev s,
      isSepChar c = true → c = '_' := by
  intro s
  induction s with
  | nil => intro prev c hc; cases hc
  | cons a as ih =>
    intro prev c hc hsep
    by_cases ha : isSepChar a = true
    · cases prev with
      | true =>
        simp only [collapseGo, ha, if_true] at hc
        exact ih true c hc hsep
      | false =>
        simp only [collapseGo, ha, if_true, if_false] at hc
        rcases List.mem_cons.mp hc with rfl | hc'
        · rfl
        · exact ih true c hc' hsep
    · simp only [collapseGo, ha, Bool.false_eq_true, if_false] at hc
      rcases List.mem_cons.mp hc with rfl | hc'
      · exact absurd hsep (by simp [ha])
      · exact ih false c hc' hsep

theorem collapseGo_head_not_sep :
    ∀ (s : List Char) (c : Char) (r : List Char),
      collapseGo true s = c :: r → isSepChar c = false := by
  intro s
  induction s with
  | nil => intro c r h; cases h
  | cons a as ih =>
    intro c r h
    by_cases ha : isSepChar a = true
    · simp only [collapseGo, ha, if_true] at h
      exact ih c r h
    · simp only [collapseGo, ha, Bool.false_eq_true, if_false] at h
      cases h
      simpa using ha

theorem collapseGo_chain (s : List Char) :
    ∀ prev, (collapseGo prev s).Chain'
      (fun a b => isSepChar a = false ∨ isSepChar b = false) := by
  induction s with
  | nil => intro prev; simp [collapseGo]
  | cons a as ih =>
    intro prev
    by_cases ha : isSepChar a = true
    · cases prev with
      | true => simpa only [collapseGo, ha, if_true] using ih true
      | false =>
        simp only [collapseGo, ha, if_true, if_false]
        refine List.chain'_cons'.mpr ⟨?_, ih true⟩
        intro b hb
        right
        cases hcol : collapseGo true as with
        | nil => rw [hcol] at hb; cases hb
        | cons c r =>
          rw [hcol] at hb
          have hb' : c = b := by simpa using hb
          rw [← hb']
          exact collapseGo_head_not_sep as c r hcol
    · simp only [collapseGo, ha, Bool.false_eq_true, if_false]
      refine List.chain'_cons'.mpr ⟨?_, ih false⟩
      intro b _
      left
      simpa using ha

theorem collapseGo_id (z : List Char) :
    CleanSeps z →
      ∀ prev, (prev = true → ∀ c ∈ z.head?, isSepChar c = false) →
        collapseGo prev z = z := by
  induction z with
  | nil => intro _ prev _; rfl
  | cons a as ih =>
    rintro ⟨hmem, hch⟩ prev hprev
    by_cases ha : isSepChar a = true
    · have ha' : a = '_' := hmem a (List.mem_cons_self a as) ha
      cases prev with
      | true =>
        have := hprev rfl a (by simp)
        rw [ha] at this; cases this
      | false =>
        simp only [collapseGo, ha, if_true, if_false]
        rw [ha']
        refine congrArg (fun l => '_' :: l) ?_
        refine ih ⟨fun c hc hsc => hmem c (List.mem_cons_of_mem a hc) hsc,
          (List.chain'_cons'.mp hch).2⟩ true (fun _ c hc => ?_)
        have hrel := (List.chain'_cons'.mp hch).1 c hc
        rcases hrel with hl | hr
        · rw [ha] at hl; cases hl
        · exact hr
    · simp only [collapseGo, ha, Bool.false_eq_true, if_false]
      refine congrArg (fun l => a :: l) ?_
      exact ih ⟨fun c hc hsc => hmem c (List.mem_cons_of_mem a hc) hsc,
        (List.chain'_cons'.mp hch).2⟩ false (by simp)

theorem dropWhile_head_not (p : Char → Bool) :
    ∀ (l : List Char) (c : Char) (r : List Char),
      l.dropWhile p = c :: r → p c = false := by
  intro l
  induction l with
  | nil => intro c r h; cases h
  | cons a as ih =>
    intro c r h
    by_cases ha : p a = true
    · rw [List.dropWhile_cons_of_pos ha] at h
      exact ih c r h
    · rw [List.dropWhile_cons_of_neg ha] at h
      cases h
      simpa using ha

theorem stripEnds_head_ok (z : List Char) :
    ∀ c ∈ (stripEnds z).head?, isStripChar c = false := by
  intro c hc
  cases hst : stripEnds z with
  | nil => rw [hst] at hc; cases hc
  | cons c₀ r =>
    rw [hst] at hc
    have hc' : c₀ = c := by simpa using hc
    rw [← hc']
    have hpre : (stripEnds z).IsPrefix (z.dropWhile isStripChar) :=
      List.rdropWhile_prefix isStripChar (z.dropWhile isStripChar)
    rcases hpre with ⟨t, ht⟩
    rw [hst] at ht
    exact dropWhile_head_not isStripChar z c₀ (r ++ t) (by
      rw [← ht]; rfl)

theorem stripEnds_last_ok (z : List Char) :
    ∀ hz : stripEnds z ≠ [], isStripChar ((stripEnds z).getLast hz) = false := by
  intro hz
  have := List.rdropWhile_last_not (p := isStripChar)
    (l := z.dropWhile isStripChar) hz
  simpa using this

theorem stripEnds_isInfix (z : List Char) : (stripEnds z).IsInfix z := by
  rcases List.dropWhile_suffix (l := z) isStripChar with ⟨s, hs⟩
  rcases List.rdropWhile_prefix isStripChar (z.dropWhile isStripChar) with
    ⟨t, ht⟩
  refine ⟨s, t, ?_⟩
  rw [List.append_assoc, stripEnds, ht, hs]

theorem stripEnds_id (z : List Char)
    (h1 : ∀ c ∈ z.head?, isStripChar c = false)
    (h2 : ∀ hz : z ≠ [], isStripChar (z.getLast hz) = false) :
    stripEnds z = z := by
  rw [stripEnds]
  have hdw : z.dropWhile isStripChar = z := by
    cases z with
    | nil => rfl
    | cons a as =>
      have := h1 a (by simp)
      rw [List.dropWhile_cons_of_neg (by simp [this])]
  rw [hdw]
  refine List.rdropWhile_eq_self_iff.mpr (fun hz => ?_)
  simpa using h2 hz

/-- The body of `_extract_base_name` (before the empty fallback)
produces a separator-canonical string with clean ends. -/
theorem base_canonical (w : List Char) :
    CleanSeps (stripEnds (collapseSeps w)) ∧
      collapseSeps (stripEnds (collapseSeps w)) =
        stripEnds (collapseSeps w) ∧
      stripEnds (stripEnds (collapseSeps w)) = stripEnds (collapseSeps w) := by
  have hclean : CleanSeps (stripEnds (collapseSeps w)) := by
    constructor
    · intro c hc hsc
      exact collapseGo_mem_sep w false c
        ((stripEnds_isInfix (collapseSeps w)).sublist.mem hc) hsc
    · exact List.Chain'.infix (collapseGo_chain w false)
        (stripEnds_isInfix (collapseSeps w))
  have hstripid : stripEnds (stripEnds (collapseSeps w)) =
      stripEnds (collapseSeps w) :=
    stripEnds_id _ (stripEnds_head_ok _) (stripEnds_last_ok _)
  refine ⟨hclean, ?_, hstripid⟩
  refine collapseGo_id _ hclean false (by simp)

theorem string_mk_data (L : List Char) : (String.mk L).data = L := rfl

theorem extract_base_name_eq (filename : String) :
    extract_base_name filename =
      if (stripEnds (collapseSeps (removeVersionMarkers
          filename.data))).isEmpty
      then filename
      else String.mk (stripEnds (collapseSeps (removeVersionMarkers
        filename.data))) := rfl

/-- **C8 (amended).**  Base-name normalization is idempotent on every
stem whose normalized form contains no residual version-marker match;
it is not idempotent in general (see the counterexample: whitespace is
canonicalized to `_` only after marker removal, which can expose a
date-stamp marker to a second pass). -/
theorem extract_base_name_idem_of_noMarker (x : String)
    (h : noMarker (extract_base_name x).data = true) :
    extract_base_name (extract_base_name x) = extract_base_name x := by
  by_cases hbb : (stripEnds (collapseSeps
      (removeVersionMarkers x.data))).isEmpty = true
  · have hx : extract_base_name x = x := by
      rw [extract_base_name_eq, if_pos hbb]
    rw [hx]
    exact hx
  · have hx : extract_base_name x =
        String.mk (stripEnds (collapseSeps (removeVersionMarkers x.data))) := by
      rw [extract_base_name_eq, if_neg hbb]
    rw [hx] at h ⊢
    have hdata : (String.mk
        (stripEnds (collapseSeps (removeVersionMarkers x.data)))).data =
        stripEnds (collapseSeps (removeVersionMarkers x.data)) :=
      string_mk_data _
    rw [hdata] at h
    obtain ⟨hclean, hcol, hstrip⟩ := base_canonical (removeVersionMarkers x.data)
    have hrem : removeVersionMarkers
        (stripEnds (collapseSeps (removeVersionMarkers x.data))) =
        stripEnds (collapseSeps (removeVersionMarkers x.data)) :=
      removeVersionMarkers_eq_self _ (noMarker_forall _ h)
    rw [extract_base_name_eq, hdata, hrem, hcol, hstrip, if_neg hbb]

/-- Closed instantiation of `extract_base_name_idem_of_noMarker` at the
marker-free stem `hello world`. -/
theorem extract_base_name_idem_witness :
    noMarker (extract_base_name "hello world").data = true ∧
      extract_base_name (extract_base_name "hello world") =
        extract_base_name "hello world" :=
  ⟨by decide, extract_base_name_idem_of_noMarker "hello world" (by decide)⟩

/-- **C8 (counterexample).**  Normalization is not idempotent:
`"a 20231215"` normalizes to `"a_20231215"` (the space becomes an
underscore), and a second pass strips the now-recognizable
`_20231215` date marker, yielding `"a"`. -/
theorem extract_base_name_not_idempotent :
    extract_base_name (extract_base_name "a 20231215") ≠
      extract_base_name "a 20231215" := by
  decide

/-- **C10.**  For every nonempty stem, base-name extraction returns a
nonempty string; and whenever marker stripping plus separator cleanup
leaves nothing, it returns the original stem unchanged. -/
theorem extract_base_name_preserves_stem (s : String) (hs : s ≠ "") :
    extract_base_name s ≠ "" ∧
      (stripEnds (collapseSeps (removeVersionMarkers s.data)) = [] →
        extract_base_name s = s) := by
  constructor
  · rw [extract_base_name_eq]
    by_cases h : (stripEnds (collapseSeps
        (removeVersionMarkers s.data))).isEmpty = true
    · rw [if_pos h]; exact hs
    · rw [if_neg h]
      intro heq
      have hd : stripEnds (collapseSeps (removeVersionMarkers s.data)) = [] := by
        have hdd := congrArg String.data heq
        rw [string_mk_data] at hdd
        exact hdd
      rw [hd] at h
      exact h rfl
  · intro hnil
    rw [extract_base_name_eq, hnil]
    rfl

/-- Closed instantiation of `extract_base_name_preserves_stem`: a stem
that is entirely a version marker (`v2`, `final`) is kept whole. -/
theorem extract_base_name_preserves_stem_witness :
    ("v2" : String) ≠ "" ∧ extract_base_name "v2" ≠ "" ∧
      extract_base_name "v2" = "v2" ∧
      extract_base_name "final" = "final" :=
  ⟨by decide, (extract_base_name_preserves_stem "v2" (by decide)).1,
    by decide, by decide⟩

/-! ### The recommendation policy of `analyze_version_group` (C7) -/

/-- The overwrite fold used for `final_version`: either no element
satisfies the predicate and the accumulator passes through, or the
result is `some` of a satisfying element of the list. -/
theorem foldl_last_match (P : FileInfo → Prop) [DecidablePred P] :
    ∀ (l : List FileInfo) (init : Option FileInfo),
      (l.foldl (fun acc f => if P f then some f else acc) init = init ∧
        ∀ f ∈ l, ¬ P f) ∨
      (∃ f ∈ l, P f ∧
        l.foldl (fun acc f => if P f then some f else acc) init = some f) := by
  intro l
  induction l with
  | nil => intro init; exact Or.inl ⟨rfl, by simp⟩
  | cons x xs ih =>
    intro init
    by_cases hx : P x
    · rcases ih (some x) with ⟨heq, hall⟩ | ⟨f, hf, hPf, heq⟩
      · refine Or.inr ⟨x, List.mem_cons_self x xs, hx, ?_⟩
        rw [List.foldl_cons, if_pos hx]
        exact heq
      · refine Or.inr ⟨f, List.mem_cons_of_mem x hf, hPf, ?_⟩
        rw [List.foldl_cons, if_pos hx]
        exact heq
    · rcases ih init with ⟨heq, hall⟩ | ⟨f, hf, hPf, heq⟩
      · refine Or.inl ⟨?_, ?_⟩
        · rw [List.foldl_cons, if_neg hx]
          exact heq
        · intro f hf
          rcases List.mem_cons.mp hf with rfl | hf'
          · exact hx
          · exact hall f hf'
      · refine Or.inr ⟨f, List.mem_cons_of_mem x hf, hPf, ?_⟩
        rw [List.foldl_cons, if_neg hx]
        exact heq

/-- **C7.**  For every nonempty version group: if some member's stem
carries a `final`-equivalent status tag, the recommended keep is such a
member; otherwise it is a member with the latest modification time; and
every member whose path differs from the recommended keep is
recommended for archival. -/
theorem analyze_version_group_policy (g : VersionGroup)
    (hne : g.files ≠ []) :
    ((∃ f ∈ g.files, statusOf f.path.stem = some "final") →
      ∃ f ∈ g.files, statusOf f.path.stem = some "final" ∧
        (analyze_version_group g).recommended_keep = some f.path) ∧
    ((∀ f ∈ g.files, ¬ statusOf f.path.stem = some "final") →
      ∃ f ∈ g.files, (analyze_version_group g).recommended_keep = some f.path ∧
        ∀ f' ∈ g.files, f'.modified_time ≤ f.modified_time) ∧
    (∀ f ∈ g.files,
      some f.path ≠ (analyze_version_group g).recommended_keep →
        f.path ∈ (analyze_version_group g).recommended_archive) := by
  have hperm := stableSort_perm (descBy (fun f : FileInfo => f.modified_time))
    g.files
  have hkeep : (analyze_version_group g).recommended_keep =
      (match (stableSort (descBy (fun f : FileInfo => f.modified_time))
          g.files).foldl
          (fun acc f => if statusOf f.path.stem = some "final" then some f
            else acc) none with
       | some f => some f.path
       | none => (stableSort (descBy (fun f : FileInfo => f.modified_time))
          g.files).head?.map (fun f => f.path)) := rfl
  have harch : (analyze_version_group g).recommended_archive =
      ((stableSort (descBy (fun f : FileInfo => f.modified_time))
          g.files).filter
        (fun f => decide (some f.path ≠
          (analyze_version_group g).recommended_keep))).map
        (fun f => f.path) := rfl
  refine ⟨?_, ?_, ?_⟩
  · rintro ⟨f₀, hf₀, hP₀⟩
    rcases foldl_last_match (fun f => statusOf f.path.stem = some "final")
        (stableSort (descBy (fun f : FileInfo => f.modified_time)) g.files)
        none with ⟨-, hall⟩ | ⟨f, hf, hPf, heq⟩
    · exact absurd hP₀ (hall f₀ (hperm.mem_iff.mpr hf₀))
    · refine ⟨f, hperm.mem_iff.mp hf, hPf, ?_⟩
      rw [hkeep, heq]
  · intro hnone
    rcases foldl_last_match (fun f => statusOf f.path.stem = some "final")
        (stableSort (descBy (fun f : FileInfo => f.modified_time)) g.files)
        none with ⟨heq, -⟩ | ⟨f, hf, hPf, -⟩
    · have hsne : stableSort (descBy (fun f : FileInfo => f.modified_time))
          g.files ≠ [] := by
        intro hcon
        rw [hcon] at hperm
        exact hne hperm.symm.eq_nil
      cases hsort : stableSort (descBy (fun f : FileInfo => f.modified_time))
          g.files with
      | nil => exact absurd hsort hsne
      | cons x t =>
        rw [hsort] at heq
        refine ⟨x, hperm.mem_iff.mp (hsort.symm ▸ List.mem_cons_self x t),
          ?_, ?_⟩
        · rw [hkeep, hsort, heq]
          rfl
        · intro f' hf'
          exact sort_descBy_head_max (fun f => f.modified_time) g.files x t
            hsort f' hf'
    · exact absurd hPf (hnone f (hperm.mem_iff.mp hf))
  · intro f hf hne'
    rw [harch]
    refine List.mem_map.mpr ⟨f, ?_, rfl⟩
    refine List.mem_filter.mpr ⟨hperm.mem_iff.mpr hf, by simpa using hne'⟩

/-- Closed instantiation of `analyze_version_group_policy` on a
two-member `report` group. -/
theorem analyze_version_group_policy_witness :
    ([⟨⟨["d"], "report_v1", ".txt"⟩, 1, none, 1, 0⟩,
      ⟨⟨["d"], "report_v2", ".txt"⟩, 1, none, 2, 0⟩] :
        List FileInfo) ≠ [] ∧
    (∀ f ∈ ([⟨⟨["d"], "report_v1", ".txt"⟩, 1, none, 1, 0⟩,
        ⟨⟨["d"], "report_v2", ".txt"⟩, 1, none, 2, 0⟩] : List FileInfo),
      ¬ statusOf f.path.stem = some "final") ∧
    (∃ f ∈ ([⟨⟨["d"], "report_v1", ".txt"⟩, 1, none, 1, 0⟩,
        ⟨⟨["d"], "report_v2", ".txt"⟩, 1, none, 2, 0⟩] : List FileInfo),
      (analyze_version_group
        ⟨"report",
          [⟨⟨["d"], "report_v1", ".txt"⟩, 1, none, 1, 0⟩,
           ⟨⟨["d"], "report_v2", ".txt"⟩, 1, none, 2, 0⟩],
          ".txt"⟩).recommended_keep = some f.path ∧
        ∀ f' ∈ ([⟨⟨["d"], "report_v1", ".txt"⟩, 1, none, 1, 0⟩,
            ⟨⟨["d"], "report_v2", ".txt"⟩, 1, none, 2, 0⟩] : List FileInfo),
          f'.modified_time ≤ f.modified_time) := by
  refine ⟨by decide, by decide, ?_⟩
  exact (analyze_version_group_policy
    ⟨"report",
      [⟨⟨["d"], "report_v1", ".txt"⟩, 1, none, 1, 0⟩,
       ⟨⟨["d"], "report_v2", ".txt"⟩, 1, none, 2, 0⟩],
      ".txt"⟩ (by decide)).2.1 (by decide)

/-! ### `classifier.py`

Reading a text file becomes `fsRead : FsPath → Option String` (`none` =
unreadable / no encoding worked); the `datetime.fromtimestamp`
decomposition becomes `dateInfo : Nat → Option (Nat × Nat)` (an
external calendar capability; `none` = the `OSError/ValueError`
branch).  Scores are exact rationals. -/

/-- Python `str.lower()` (character-wise, kernel-reducible). -/
def lowerStr (s : String) : String := String.mk (s.data.map Char.toLower)

/-- The extension sets that `FileClassifier._get_file_type` reads from
`OrganizerConfig`. -/
structure ClassifierConfig where
  text_extensions : List String
  document_extensions : List String
  image_extensions : List String
deriving DecidableEq, Repr

/-- The defaults from `config.OrganizerConfig`. -/
def default_text_extensions : List String :=
  [".txt", ".md", ".py", ".js", ".java", ".c", ".cpp", ".h",
   ".html", ".css", ".json", ".xml", ".yaml", ".yml", ".ini",
   ".cfg", ".conf", ".log", ".csv", ".rst", ".tex"]

def default_document_extensions : List String :=
  [".doc", ".docx", ".pdf", ".ppt", ".pptx", ".xls", ".xlsx",
   ".odt", ".ods", ".odp", ".rtf"]

def default_image_extensions : List String :=
  [".jpg", ".jpeg", ".png", ".gif", ".bmp", ".svg", ".webp",
   ".ico", ".tiff", ".raw"]

def video_extensions : List String :=
  [".mp4", ".avi", ".mkv", ".mov", ".wmv", ".flv", ".webm"]

def audio_extensions : List String :=
  [".mp3", ".wav", ".flac", ".aac", ".ogg", ".wma"]

def archive_extensions : List String :=
  [".zip", ".rar", ".7z", ".tar", ".gz", ".bz2"]

def executable_extensions : List String :=
  [".exe", ".msi", ".dmg", ".deb", ".rpm"]

/-- `FileClassifier._get_file_type`. -/
def get_file_type (cfg : ClassifierConfig) (p : FsPath) : String :=
  let ext := lowerStr p.suffix
  if ext ∈ cfg.text_extensions then "text"
  else if ext ∈ cfg.document_extensions then "document"
  else if ext ∈ cfg.image_extensions then "image"
  else if ext ∈ video_extensions then "video"
  else if ext ∈ audio_extensions then "audio"
  else if ext ∈ archive_extensions then "archive"
  else if ext ∈ executable_extensions then "executable"
  else "other"

/-- `FileClassifier._classify_by_type` (`dict.get` with default
`"기타"`). -/
def classify_by_type (file_type : String) : String :=
  if file_type = "text" then "문서"
  else if file_type = "document" then "문서"
  else if file_type = "image" then "미디어"
  else if file_type = "video" then "미디어"
  else if file_type = "audio" then "미디어"
  else if file_type = "archive" then "압축파일"
  else if file_type = "executable" then "프로그램"
  else if file_type = "other" then "기타"
  else "기타"

def KOREAN_STOPWORDS : List String :=
  ["이", "가", "을", "를", "의", "에", "에서", "으로", "로", "와", "과",
   "는", "은", "도", "만", "까지", "부터", "보다", "처럼", "같이",
   "그", "저", "이것", "그것", "저것", "여기", "거기", "저기",
   "하다", "되다", "있다", "없다", "않다", "이다", "아니다",
   "수", "것", "등", "및", "또는", "그리고", "하지만", "그러나"]

def ENGLISH_STOPWORDS : List String :=
  ["the", "a", "an", "is", "are", "was", "were", "be", "been", "being",
   "have", "has", "had", "do", "does", "did", "will", "would", "could",
   "should", "may", "might", "must", "shall", "can", "need", "dare",
   "to", "of", "in", "for", "on", "with", "at", "by", "from", "as",
   "into", "through", "during", "before", "after", "above", "below",
   "and", "but", "or", "nor", "so", "yet", "both", "either", "neither",
   "not", "only", "own", "same", "than", "too", "very", "just",
   "this", "that", "these", "those", "it", "its", "they", "them"]

def stopwords : List String := KOREAN_STOPWORDS ++ ENGLISH_STOPWORDS

/-- `re.sub(r'[^\w\s가-힣]', ' ', text)`: keep word characters (ASCII
alphanumerics and `_`, plus the Hangul-syllable block) and whitespace,
blank out the rest. -/
def keepChar (c : Char) : Bool :=
  c.isAlphanum || c = '_' ||
    (0xAC00 ≤ c.toNat && c.toNat ≤ 0xD7A3) || c.isWhitespace

def cleanText (s : String) : String :=
  String.mk (s.data.map (fun c => if keepChar c then c else ' '))

/-- `TextAnalyzer.extract_keywords`: lowercase, blank out punctuation,
tokenize on whitespace, drop stopwords / one-character / digit-only
tokens, count, and return the `max_keywords` most common (ties in
first-occurrence order, as `Counter.most_common` does). -/
def extract_keywords (text : String) (max_keywords : Nat) :
    List (String × Nat) :=
  let cleaned := cleanText (lowerStr text)
  let tokens := (cleaned.split (fun c => c.isWhitespace)).filter
    (fun s => !s.isEmpty)
  let tokens := tokens.filter (fun t =>
    !(decide (t ∈ stopwords)) && decide (1 < t.length) &&
      !(t.data.all (fun c => c.isDigit)))
  let counts := (groupListBy id tokens).map (fun g => (g.1, g.2.length))
  (stableSort (descBy (fun p => p.2)) counts).take max_keywords

/-- Substring containment over character lists. -/
def containsSub (tok s : List Char) : Bool :=
  (List.range (s.length + 1)).any (fun i => tok.isPrefixOf (s.drop i))

/-- `TextAnalyzer.calculate_category_score`: fraction of the category's
keywords occurring (lowercased) as substrings of the lowercased text;
`0.0` for an empty keyword list. -/
def calculate_category_score (text : String)
    (category_keywords : List String) : ℚ :=
  let text_lower := lowerStr text
  let nmatches := category_keywords.countP
    (fun kw => containsSub (lowerStr kw).data text_lower.data)
  if category_keywords = [] then 0
  else (nmatches : ℚ) / (category_keywords.length : ℚ)

/-- `config.DEFAULT_CATEGORIES`, in dict order. -/
def DEFAULT_CATEGORIES : List (String × List String) :=
  [("업무_문서", ["보고서", "회의", "기획", "제안서", "계약", "invoice",
     "report", "meeting", "proposal"]),
   ("개발_프로젝트", ["python", "java", "javascript", "code", "프로그램",
     "개발", "소스", "function", "class", "def"]),
   ("재무_회계", ["세금", "급여", "예산", "결산", "영수증", "tax", "budget",
     "salary", "receipt", "invoice"]),
   ("개인_문서", ["이력서", "자기소개", "resume", "cv", "personal"]),
   ("교육_학습", ["강의", "교육", "학습", "course", "tutorial", "lesson",
     "study"]),
   ("미디어", ["사진", "영상", "음악", "photo", "video", "music", "image"])]

/-- The best-scoring category loop (`score > best_score`, so the first
of equal scores wins and a zero score never selects). -/
def bestCategory (analysis_text : String)
    (cats : List (String × List String)) : Option String × ℚ :=
  cats.foldl (fun best c =>
    if calculate_category_score analysis_text c.2 > best.2 then
      (some c.1, calculate_category_score analysis_text c.2)
    else best) (none, 0)

/-- `FileClassifier.classify_by_content`. -/
def classify_by_content (cfg : ClassifierConfig)
    (fsRead : FsPath → Option String)
    (dateInfo : Nat → Option (Nat × Nat)) (fi : FileInfo) :
    ClassificationResult :=
  let file_type := get_file_type cfg fi.path
  let base : ClassificationResult :=
    { file_info := fi, category := "기타", confidence := 0 }
  let r :=
    if file_type = "text" then
      match fsRead fi.path with
      | some content =>
        if content = "" then base
        else
          let kws := (extract_keywords content 10).map (fun p => p.1)
          let analysis_text := content ++ " " ++ fi.path.stem
          let best := bestCategory analysis_text DEFAULT_CATEGORIES
          match best.1 with
          | some c =>
            if c ≠ "" ∧ best.2 > (1 : ℚ)/10 then
              { base with keywords := kws, category := c,
                          confidence := best.2 }
            else { base with keywords := kws }
          | none => { base with keywords := kws }
      | none => base
    else
      { base with category := classify_by_type file_type,
                  confidence := (8 : ℚ)/10 }
  { r with year := (dateInfo fi.modified_time).map Prod.fst,
           month := (dateInfo fi.modified_time).map Prod.snd }

/-- `FileClassifier.classify_by_date` (`1.0 if year else 0.5`:
`year` is falsy when absent or zero). -/
def classify_by_date (cfg : ClassifierConfig)
    (dateInfo : Nat → Option (Nat × Nat)) (fi : FileInfo) :
    ClassificationResult :=
  { file_info := fi
    category := classify_by_type (get_file_type cfg fi.path)
    year := (dateInfo fi.modified_time).map Prod.fst
    month := (dateInfo fi.modified_time).map Prod.snd
    confidence :=
      match dateInfo fi.modified_time with
      | some (y, _) => if y ≠ 0 then 1 else (1 : ℚ)/2
      | none => (1 : ℚ)/2 }

/-- `FileClassifier.classify_files`: per file, content- or date-based
classification, then date enrichment when year or month is missing. -/
def classify_files (cfg : ClassifierConfig)
    (fsRead : FsPath → Option String)
    (dateInfo : Nat → Option (Nat × Nat)) (files : List FileInfo)
    (by_content by_date : Bool) : List ClassificationResult :=
  files.map (fun fi =>
    let r := if by_content then classify_by_content cfg fsRead dateInfo fi
      else classify_by_date cfg dateInfo fi
    if by_date && (r.year.isNone || r.month.isNone) then
      { r with year := (dateInfo fi.modified_time).map Prod.fst,
               month := (dateInfo fi.modified_time).map Prod.snd }
    else r)

/-- An extension `_get_file_type` maps to something other than
`"other"`. -/
def recognizedExt (cfg : ClassifierConfig) (ext : String) : Bool :=
  decide (ext ∈ cfg.text_extensions) ||
  decide (ext ∈ cfg.document_extensions) ||
  decide (ext ∈ cfg.image_extensions) ||
  decide (ext ∈ video_extensions) ||
  decide (ext ∈ audio_extensions) ||
  decide (ext ∈ archive_extensions) ||
  decide (ext ∈ executable_extensions)

theorem calculate_category_score_bounds (t : String) (kws : List String) :
    0 ≤ calculate_category_score t kws ∧
      calculate_category_score t kws ≤ 1 := by
  simp only [calculate_category_score]
  by_cases h : kws = []
  · rw [if_pos h]; exact ⟨le_refl 0, zero_le_one⟩
  · rw [if_neg h]
    refine ⟨div_nonneg (Nat.cast_nonneg _) (Nat.cast_nonneg _), ?_⟩
    rw [div_le_one (by exact_mod_cast List.length_pos.mpr h)]
    exact_mod_cast List.countP_le_length _

theorem bestCategory_snd_bounds (t : String)
    (cats : List (String × List String)) :
    0 ≤ (bestCategory t cats).2 ∧ (bestCategory t cats).2 ≤ 1 := by
  have main : ∀ (l : List (String × List String))
      (acc : Option String × ℚ), 0 ≤ acc.2 → acc.2 ≤ 1 →
      0 ≤ (l.foldl (fun best c =>
          if calculate_category_score t c.2 > best.2 then
            (some c.1, calculate_category_score t c.2)
          else best) acc).2 ∧
      (l.foldl (fun best c =>
          if calculate_category_score t c.2 > best.2 then
            (some c.1, calculate_category_score t c.2)
          else best) acc).2 ≤ 1 := by
    intro l
    induction l with
    | nil => intro acc h0 h1; exact ⟨h0, h1⟩
    | cons c r ih =>
      intro acc h0 h1
      simp only [List.foldl_cons]
      by_cases hc : calculate_category_score t c.2 > acc.2
      · rw [if_pos hc]
        exact ih _ (calculate_category_score_bounds t c.2).1
          (calculate_category_score_bounds t c.2).2
      · rw [if_neg hc]; exact ih _ h0 h1
  exact main cats (none, 0) le_rfl zero_le_one

theorem classify_by_content_conf_bounds (cfg : ClassifierConfig)
    (fsRead : FsPath → Option String)
    (dateInfo : Nat → Option (Nat × Nat)) (fi : FileInfo) :
    0 ≤ (classify_by_content cfg fsRead dateInfo fi).confidence ∧
      (classify_by_content cfg fsRead dateInfo fi).confidence ≤ 1 := by
  simp only [classify_by_content]
  split
  · split
    · split
      · exact ⟨le_refl 0, zero_le_one⟩
      · split
        · split
          · exact ⟨(bestCategory_snd_bounds _ _).1,
              (bestCategory_snd_bounds _ _).2⟩
          · exact ⟨le_refl 0, zero_le_one⟩
        · exact ⟨le_refl 0, zero_le_one⟩
    · exact ⟨le_refl 0, zero_le_one⟩
  · exact ⟨by norm_num, by norm_num⟩

theorem classify_by_date_conf_bounds (cfg : ClassifierConfig)
    (dateInfo : Nat → Option (Nat × Nat)) (fi : FileInfo) :
    0 ≤ (classify_by_date cfg dateInfo fi).confidence ∧
      (classify_by_date cfg dateInfo fi).confidence ≤ 1 := by
  simp only [classify_by_date]
  split
  · split
    · exact ⟨zero_le_one, le_refl 1⟩
    · exact ⟨by norm_num, by norm_num⟩
  · exact ⟨by norm_num, by norm_num⟩

theorem get_file_type_eq_other (cfg : ClassifierConfig) (p : FsPath)
    (h : recognizedExt cfg (lowerStr p.suffix) = false) :
    get_file_type cfg p = "other" := by
  simp only [recognizedExt, Bool.or_eq_false_iff,
    decide_eq_false_iff_not] at h
  obtain ⟨⟨⟨⟨⟨⟨h1, h2⟩, h3⟩, h4⟩, h5⟩, h6⟩, h7⟩ := h
  simp only [get_file_type]
  rw [if_neg h1, if_neg h2, if_neg h3, if_neg h4, if_neg h5, if_neg h6,
    if_neg h7]

theorem classify_by_content_other (cfg : ClassifierConfig)
    (fsRead : FsPath → Option String)
    (dateInfo : Nat → Option (Nat × Nat)) (fi : FileInfo)
    (h : get_file_type cfg fi.path = "other") :
    (classify_by_content cfg fsRead dateInfo fi).category = "기타" := by
  simp only [classify_by_content, h]
  rw [if_neg (by decide : ¬ ("other" : String) = "text")]
  rfl

theorem classify_by_date_other (cfg : ClassifierConfig)
    (dateInfo : Nat → Option (Nat × Nat)) (fi : FileInfo)
    (h : get_file_type cfg fi.path = "other") :
    (classify_by_date cfg dateInfo fi).category = "기타" := by
  simp only [classify_by_date, h]
  rfl

/-- C9 — every `ClassificationResult` produced by
`FileClassifier.classify_files` carries a confidence in `[0, 1]`
(content scores are match fractions, the type fallback is `0.8`, the
date path yields `1.0` or `0.5`), and a file whose extension belongs to
none of the recognized extension sets and whose content is unreadable
is classified into the catch-all category `"기타"` by both
`classify_by_content` and `classify_by_date`.  (Absence of exceptions
is reflected by the embedding being total: unreadable content is the
`none` branch, which yields the default result rather than an
error.) -/
theorem classification_confidence_and_catchall (cfg : ClassifierConfig)
    (fsRead : FsPath → Option String)
    (dateInfo : Nat → Option (Nat × Nat)) (files : List FileInfo)
    (by_content by_date : Bool) (fi : FileInfo)
    (hext : recognizedExt cfg (lowerStr fi.path.suffix) = false)
    (hread : fsRead fi.path = none) :
    (∀ r ∈ classify_files cfg fsRead dateInfo files by_content by_date,
        0 ≤ r.confidence ∧ r.confidence ≤ 1) ∧
    (classify_by_content cfg fsRead dateInfo fi).category = "기타" ∧
    (classify_by_date cfg dateInfo fi).category = "기타" := by
  refine ⟨?_, classify_by_content_other cfg fsRead dateInfo fi
      (get_file_type_eq_other cfg fi.path hext),
    classify_by_date_other cfg dateInfo fi
      (get_file_type_eq_other cfg fi.path hext)⟩
  intro r hr
  simp only [classify_files, List.mem_map] at hr
  obtain ⟨g, -, rfl⟩ := hr
  split
  · split
    · exact classify_by_content_conf_bounds cfg fsRead dateInfo g
    · exact classify_by_content_conf_bounds cfg fsRead dateInfo g
  · split
    · exact classify_by_date_conf_bounds cfg dateInfo g
    · exact classify_by_date_conf_bounds cfg dateInfo g

/-- The C9 theorem at a concrete input: an unreadable file `blob.xyz`
under the default extension sets. -/
theorem classification_confidence_and_catchall_witness :
    (∀ r ∈ classify_files
        ⟨default_text_extensions, default_document_extensions,
         default_image_extensions⟩ (fun _ => none) (fun _ => none)
        [⟨⟨["d"], "blob", ".xyz"⟩, 2, none, 5, 0⟩] true true,
        0 ≤ r.confidence ∧ r.confidence ≤ 1) ∧
    (classify_by_content
        ⟨default_text_extensions, default_document_extensions,
         default_image_extensions⟩ (fun _ => none) (fun _ => none)
        ⟨⟨["d"], "blob", ".xyz"⟩, 2, none, 5, 0⟩).category = "기타" ∧
    (classify_by_date
        ⟨default_text_extensions, default_document_extensions,
         default_image_extensions⟩ (fun _ => none)
        ⟨⟨["d"], "blob", ".xyz"⟩, 2, none, 5, 0⟩).category = "기타" :=
  classification_confidence_and_catchall
    ⟨default_text_extensions, default_document_extensions,
     default_image_extensions⟩ (fun _ => none) (fun _ => none)
    [⟨⟨["d"], "blob", ".xyz"⟩, 2, none, 5, 0⟩] true true
    ⟨⟨["d"], "blob", ".xyz"⟩, 2, none, 5, 0⟩ (by decide) rfl

end FileOrg
